import Mathlib

/-!
Verification of the grinfi-mcp-server adapter (TypeScript sources
`src/index.ts` and `src/http-server.ts`) against its natural-language
specification.  The relevant parts of the program are shallowly embedded:
JSON values are an inductive type, the query-assembly / response-processing /
enrichment / aggregation code is translated into executable Lean functions,
and the spec's claims are proved or refuted about those functions.
-/

set_option autoImplicit false

namespace Grinfi

/-- JSON values as decoded by `JSON.parse` (objects are ordered key/value
lists with distinct keys; JavaScript numbers are modelled as integers, which
covers every value the claims exercise). -/
inductive Json where
  | null
  | bool (b : Bool)
  | num (n : Int)
  | str (s : String)
  | arr (items : List Json)
  | obj (fields : List (String × Json))
  deriving Repr

mutual
/-- Decidable equality for `Json`. -/
def Json.beq : Json → Json → Bool
  | .null, .null => true
  | .bool a, .bool b => a == b
  | .num a, .num b => a == b
  | .str a, .str b => a == b
  | .arr xs, .arr ys => Json.beqList xs ys
  | .obj fs, .obj gs => Json.beqFields fs gs
  | _, _ => false

def Json.beqList : List Json → List Json → Bool
  | [], [] => true
  | x :: xs, y :: ys => Json.beq x y && Json.beqList xs ys
  | _, _ => false

def Json.beqFields : List (String × Json) → List (String × Json) → Bool
  | [], [] => true
  | (k, v) :: fs, (l, w) :: gs => k == l && Json.beq v w && Json.beqFields fs gs
  | _, _ => false
end

mutual
theorem Json.beq_refl : ∀ x : Json, Json.beq x x = true
  | .null => rfl
  | .bool b => by simp [Json.beq]
  | .num n => by simp [Json.beq]
  | .str s => by simp [Json.beq]
  | .arr xs => by simp [Json.beq, Json.beqList_refl xs]
  | .obj fs => by simp [Json.beq, Json.beqFields_refl fs]

theorem Json.beqList_refl : ∀ xs : List Json, Json.beqList xs xs = true
  | [] => rfl
  | x :: xs => by simp [Json.beqList, Json.beq_refl x, Json.beqList_refl xs]

theorem Json.beqFields_refl : ∀ fs : List (String × Json), Json.beqFields fs fs = true
  | [] => rfl
  | (k, v) :: fs => by simp [Json.beqFields, Json.beq_refl v, Json.beqFields_refl fs]
end

mutual
theorem Json.eq_of_beq : ∀ {x y : Json}, Json.beq x y = true → x = y
  | .null, .null, _ => rfl
  | .bool a, .bool b, h => by
      have hab : a = b := by simpa [Json.beq] using h
      rw [hab]
  | .num a, .num b, h => by
      have hab : a = b := by simpa [Json.beq] using h
      rw [hab]
  | .str a, .str b, h => by
      have hab : a = b := by simpa [Json.beq] using h
      rw [hab]
  | .arr xs, .arr ys, h => congrArg Json.arr (Json.eqList_of_beq (by simpa [Json.beq] using h))
  | .obj fs, .obj gs, h => congrArg Json.obj (Json.eqFields_of_beq (by simpa [Json.beq] using h))
  | .null, .bool _, h => by simp [Json.beq] at h
  | .null, .num _, h => by simp [Json.beq] at h
  | .null, .str _, h => by simp [Json.beq] at h
  | .null, .arr _, h => by simp [Json.beq] at h
  | .null, .obj _, h => by simp [Json.beq] at h
  | .bool _, .null, h => by simp [Json.beq] at h
  | .bool _, .num _, h => by simp [Json.beq] at h
  | .bool _, .str _, h => by simp [Json.beq] at h
  | .bool _, .arr _, h => by simp [Json.beq] at h
  | .bool _, .obj _, h => by simp [Json.beq] at h
  | .num _, .null, h => by simp [Json.beq] at h
  | .num _, .bool _, h => by simp [Json.beq] at h
  | .num _, .str _, h => by simp [Json.beq] at h
  | .num _, .arr _, h => by simp [Json.beq] at h
  | .num _, .obj _, h => by simp [Json.beq] at h
  | .str _, .null, h => by simp [Json.beq] at h
  | .str _, .bool _, h => by simp [Json.beq] at h
  | .str _, .num _, h => by simp [Json.beq] at h
  | .str _, .arr _, h => by simp [Json.beq] at h
  | .str _, .obj _, h => by simp [Json.beq] at h
  | .arr _, .null, h => by simp [Json.beq] at h
  | .arr _, .bool _, h => by simp [Json.beq] at h
  | .arr _, .num _, h => by simp [Json.beq] at h
  | .arr _, .str _, h => by simp [Json.beq] at h
  | .arr _, .obj _, h => by simp [Json.beq] at h
  | .obj _, .null, h => by simp [Json.beq] at h
  | .obj _, .bool _, h => by simp [Json.beq] at h
  | .obj _, .num _, h => by simp [Json.beq] at h
  | .obj _, .str _, h => by simp [Json.beq] at h
  | .obj _, .arr _, h => by simp [Json.beq] at h

theorem Json.eqList_of_beq : ∀ {xs ys : List Json}, Json.beqList xs ys = true → xs = ys
  | [], [], _ => rfl
  | x :: xs, y :: ys, h => by
      have h1 : Json.beq x y = true ∧ Json.beqList xs ys = true := by
        simpa [Json.beqList, Bool.and_eq_true] using h
      rw [Json.eq_of_beq h1.1, Json.eqList_of_beq h1.2]
  | [], _ :: _, h => by simp [Json.beqList] at h
  | _ :: _, [], h => by simp [Json.beqList] at h

theorem Json.eqFields_of_beq :
    ∀ {fs gs : List (String × Json)}, Json.beqFields fs gs = true → fs = gs
  | [], [], _ => rfl
  | (k, v) :: fs, (l, w) :: gs, h => by
      have h1 : (k == l) = true ∧ Json.beq v w = true ∧ Json.beqFields fs gs = true := by
        simpa [Json.beqFields, Bool.and_eq_true, and_assoc] using h
      have hk : k = l := by simpa using h1.1
      rw [hk, Json.eq_of_beq h1.2.1, Json.eqFields_of_beq h1.2.2]
  | [], _ :: _, h => by simp [Json.beqFields] at h
  | _ :: _, [], h => by simp [Json.beqFields] at h
end

instance : DecidableEq Json := fun x y =>
  if h : Json.beq x y = true then
    isTrue (Json.eq_of_beq h)
  else
    isFalse (fun he => h (he ▸ Json.beq_refl x))

/-- JavaScript property read on an object's field list (`obj.key`):
the value of the first field named `key`, or `none` for `undefined`. -/
def getField : List (String × Json) → String → Option Json
  | [], _ => none
  | (k, v) :: rest, key => if k = key then some v else getField rest key

/-- JavaScript property write on an object's field list (`obj.key = v`):
overwrite in place when the key exists, append otherwise. -/
def setField : List (String × Json) → String → Json → List (String × Json)
  | [], key, v => [(key, v)]
  | (k, w) :: rest, key, v =>
    if k = key then (k, v) :: rest else (k, w) :: setField rest key v

/-- JavaScript truthiness of a decoded JSON value. -/
def truthy : Json → Bool
  | .null => false
  | .bool b => b
  | .num n => n != 0
  | .str s => s != ""
  | .arr _ => true
  | .obj _ => true

/-- `typeof x === "object"` for a decoded JSON value (true for `null`,
arrays and objects). -/
def isObjType : Json → Bool
  | .null => true
  | .arr _ => true
  | .obj _ => true
  | _ => false

/-- Truthiness of `obj.key`: an absent field is `undefined`, hence falsy. -/
def fieldTruthy (fs : List (String × Json)) (key : String) : Bool :=
  match getField fs key with
  | some v => truthy v
  | none => false

mutual
/-- JavaScript `String(x)` / template-literal conversion of a decoded
JSON value. -/
def jsToString : Json → String
  | .null => "null"
  | .bool b => if b then "true" else "false"
  | .num n => toString n
  | .str s => s
  | .arr items => jsJoin items
  | .obj _ => "[object Object]"

/-- `Array.prototype.toString`: elements joined by commas, `null` elements
rendered as the empty string. -/
def jsJoin : List Json → String
  | [] => ""
  | [Json.null] => ""
  | [x] => jsToString x
  | Json.null :: rest => "," ++ jsJoin rest
  | x :: rest => jsToString x ++ "," ++ jsJoin rest
end

/-! ## Response enricher (`enrichLeadWithLinks` / `enrichResult`) -/

/-- The `_grinfi_contact_url` value built in `enrichLeadWithLinks`. -/
def contactUrl (u : Json) : String :=
  "https://leadgen.grinfi.io/crm/contacts/" ++ jsToString u

/-- The `_linkedin_url` value built in `enrichLeadWithLinks`. -/
def linkedinUrl (l : Json) : String :=
  "https://www.linkedin.com/in/" ++ jsToString l

/-- One guarded URL-field assignment of `enrichLeadWithLinks`:
`if (lead.<srcKey>) lead.<dstKey> = <mk>(lead.<srcKey>)`. -/
def setUrlField (fs : List (String × Json)) (srcKey dstKey : String)
    (mk : Json → String) : List (String × Json) :=
  match getField fs srcKey with
  | some v => if truthy v then setField fs dstKey (Json.str (mk v)) else fs
  | none => fs

/-- Body of `enrichLeadWithLinks`, acting on an object's field list:
if `lead.uuid` is truthy set `lead._grinfi_contact_url`, then if
`lead.linkedin` is truthy set `lead._linkedin_url`. -/
def enrichLeadFields (fs : List (String × Json)) : List (String × Json) :=
  setUrlField (setUrlField fs "uuid" "_grinfi_contact_url" contactUrl)
    "linkedin" "_linkedin_url" linkedinUrl

/-- `enrichLeadWithLinks`: mutates a lead-shaped object in place; property
assignment on a non-object decoded JSON value is impossible here because the
guarding reads (`lead.uuid`, `lead.linkedin`) are `undefined` on it. -/
def enrichLeadWithLinks (lead : Json) : Json :=
  match lead with
  | .obj fs => .obj (enrichLeadFields fs)
  | _ => lead

/-- The `if (obj.lead && typeof obj.lead === "object")
enrichLeadWithLinks(obj.lead)` statement shared by `enrichResult` and its
`data`-loop body. -/
def enrichNestedLead (fs : List (String × Json)) : List (String × Json) :=
  match getField fs "lead" with
  | some l => if truthy l && isObjType l then setField fs "lead" (enrichLeadWithLinks l) else fs
  | none => fs

/-- The per-element body of `enrichResult`'s loop over `obj.data`:
enrich a nested truthy-object `lead`, else enrich the element itself when it
has a truthy `uuid` and no truthy `lead`. -/
def enrichDataItem (item : Json) : Json :=
  if truthy item && isObjType item then
    match item with
    | .obj fs =>
      let fs1 := enrichNestedLead fs
      Json.obj (if fieldTruthy fs1 "uuid" && !fieldTruthy fs1 "lead" then enrichLeadFields fs1
                else fs1)
    | _ => item
  else item

/-- The `if (Array.isArray(obj.data))` loop of `enrichResult`: enrich each
element of the `data` array in place. -/
def enrichDataArray (fs : List (String × Json)) : List (String × Json) :=
  match getField fs "data" with
  | some (Json.arr items) => setField fs "data" (Json.arr (items.map enrichDataItem))
  | _ => fs

/-- `enrichResult`: enrich a nested `lead` object, each element of a `data`
array, and the value itself when it has truthy `uuid` and `name` fields. -/
def enrichResult (data : Json) : Json :=
  if truthy data && isObjType data then
    match data with
    | .obj fs =>
      let fs2 := enrichDataArray (enrichNestedLead fs)
      Json.obj (if fieldTruthy fs2 "uuid" && fieldTruthy fs2 "name" then enrichLeadFields fs2
                else fs2)
    | _ => data
  else data

/-! ## Structural predicates on JSON values -/

mutual
/-- No object anywhere in the value has a field named `key`. -/
def noKeyAnywhere (key : String) : Json → Bool
  | .obj fs => noKeyFields key fs
  | .arr xs => noKeyList key xs
  | .null => true
  | .bool _ => true
  | .num _ => true
  | .str _ => true

def noKeyList (key : String) : List Json → Bool
  | [] => true
  | x :: xs => noKeyAnywhere key x && noKeyList key xs

def noKeyFields (key : String) : List (String × Json) → Bool
  | [] => true
  | (k, v) :: fs => !(k == key) && noKeyAnywhere key v && noKeyFields key fs
end

mutual
/-- Well-formedness of a decoded JSON value: within each object the keys are
pairwise distinct, as `JSON.parse` guarantees. -/
def wfJson : Json → Bool
  | .obj fs => wfFields fs
  | .arr xs => wfList xs
  | .null => true
  | .bool _ => true
  | .num _ => true
  | .str _ => true

def wfList : List Json → Bool
  | [] => true
  | x :: xs => wfJson x && wfList xs

def wfFields : List (String × Json) → Bool
  | [] => true
  | (k, v) :: fs => (getField fs k).isNone && wfJson v && wfFields fs
end

mutual
/-- Every field of the first value is present, under the same name and along
the same path, in the second value (arrays must keep their length; atomic
leaves may change).  This is what "contains every field of the input under
its original name / never removes or renames an existing field" means. -/
def keysIncl : Json → Json → Bool
  | .obj fs, .obj gs => keysInclFields gs fs
  | .obj _, .null => false
  | .obj _, .bool _ => false
  | .obj _, .num _ => false
  | .obj _, .str _ => false
  | .obj _, .arr _ => false
  | .arr xs, .arr ys => keysInclList xs ys
  | .arr _, .null => false
  | .arr _, .bool _ => false
  | .arr _, .num _ => false
  | .arr _, .str _ => false
  | .arr _, .obj _ => false
  | .null, _ => true
  | .bool _, _ => true
  | .num _, _ => true
  | .str _, _ => true

def keysInclList : List Json → List Json → Bool
  | [], [] => true
  | x :: xs, y :: ys => keysIncl x y && keysInclList xs ys
  | [], _ :: _ => false
  | _ :: _, [] => false

/-- Every field of the second list is found by key in `gs` with an
included value. -/
def keysInclFields (gs : List (String × Json)) : List (String × Json) → Bool
  | [] => true
  | (k, v) :: fs =>
    (match getField gs k with
     | some w => keysIncl v w
     | none => false) && keysInclFields gs fs
end

/-! ## Request forwarder (`grinfiRequest`) -/

/-- Assoc-list read (first occurrence), for string-valued maps such as the
assembled query string. -/
def lookupA {α : Type} : List (String × α) → String → Option α
  | [], _ => none
  | (k, v) :: rest, key => if k = key then some v else lookupA rest key

/-- `url.searchParams.set`: overwrite an existing key, append otherwise. -/
def setA {α : Type} : List (String × α) → String → α → List (String × α)
  | [], key, v => [(key, v)]
  | (k, w) :: rest, key, v =>
    if k = key then (k, v) :: rest else (k, w) :: setA rest key v

/-- The query-string assembly loop of `grinfiRequest`: each entry of
`queryParams` whose value is neither `undefined` (`none`) nor the empty
string is set on the URL's search parameters. -/
def assembleSearchParamsAux :
    List (String × String) → List (String × Option String) → List (String × String)
  | acc, [] => acc
  | acc, (_, none) :: rest => assembleSearchParamsAux acc rest
  | acc, (k, some v) :: rest =>
    if v = "" then assembleSearchParamsAux acc rest
    else assembleSearchParamsAux (setA acc k v) rest

def assembleSearchParams (queryParams : List (String × Option String)) : List (String × String) :=
  assembleSearchParamsAux [] queryParams

/-- The body-attachment condition of `grinfiRequest`:
`if (body && (method === "POST" || method === "PUT" || method === "PATCH"))
options.body = JSON.stringify(body)`. -/
def attachedBody (method : String) (body : Option Json) : Option Json :=
  match body with
  | some b =>
    if truthy b && (method == "POST" || method == "PUT" || method == "PATCH") then some b
    else none
  | none => none

/-- The synthetic object returned by `grinfiRequest` for a 204 status. -/
def successObj : Json :=
  Json.obj [("success", Json.bool true),
            ("message", Json.str "Operation completed successfully (204 No Content)")]

/-- `response.ok` of the fetch API: status in the range 200–299. -/
def statusOk (status : Nat) : Bool :=
  decide (200 ≤ status) && decide (status ≤ 299)

/-- Response processing of `grinfiRequest`: 204 short-circuits to the
synthetic success object before the body is read; a non-OK status throws
`Grinfi API error <status>: <text>`; an OK body is `JSON.parse`d, falling
back to `{ rawResponse: <text> }` when parsing fails.  `parse` stands for
`JSON.parse`, returning `none` when it would throw. -/
def processResponse (status : Nat) (text : String) (parse : String → Option Json) :
    Except String Json :=
  if status = 204 then .ok successObj
  else if !statusOk status then
    .error ("Grinfi API error " ++ toString status ++ ": " ++ text)
  else
    match parse text with
    | some v => .ok v
    | none => .ok (Json.obj [("rawResponse", Json.str text)])

/-! ## Query-building helper (`buildQuery`, http-server.ts) -/

/-- The `filterFields` loop of `buildQuery`:
`if (params[f] !== undefined) query[filter[f]] = String(params[f])`. -/
def buildQueryFilters (params : List (String × Json)) :
    List (String × String) → List String → List (String × String)
  | q, [] => q
  | q, f :: rest =>
    match getField params f with
    | some v => buildQueryFilters params (setA q ("filter[" ++ f ++ "]") (jsToString v)) rest
    | none => buildQueryFilters params q rest

/-- One `if (params.<pkey> !== undefined) query[<qkey>] = String(params.<pkey>)`
statement of `buildQuery`. -/
def setIfPresent (params : List (String × Json)) (pkey qkey : String)
    (q : List (String × String)) : List (String × String) :=
  match getField params pkey with
  | some v => setA q qkey (jsToString v)
  | none => q

/-- One `if (params.<pkey>) query[<qkey>] = String(params.<pkey>)` statement
of `buildQuery` (truthiness guard). -/
def setIfTruthy (params : List (String × Json)) (pkey qkey : String)
    (q : List (String × String)) : List (String × String) :=
  match getField params pkey with
  | some v => if truthy v then setA q qkey (jsToString v) else q
  | none => q

/-- `buildQuery`: pagination/ordering/search parameters plus the optional
`filter[<field>]` entries.  `limit`/`offset` are guarded by
`!== undefined`, the remaining base parameters by truthiness, and `search`
maps to the `filter[q]` key. -/
def buildQuery (params : List (String × Json)) (filterFields : Option (List String)) :
    List (String × String) :=
  let q := setIfPresent params "limit" "limit" []
  let q := setIfPresent params "offset" "offset" q
  let q := setIfTruthy params "order_field" "order_field" q
  let q := setIfTruthy params "order_type" "order_type" q
  let q := setIfTruthy params "search" "filter[q]" q
  match filterFields with
  | some ff => buildQueryFilters params q ff
  | none => q

/-! ## Unread-conversation aggregator (`get_unread_conversations`) -/

structure InboxMsg where
  lead_uuid : String
  text : String
  created_at : String
  sender_profile_uuid : String
  linkedin_conversation_uuid : String
  deriving DecidableEq, Repr

structure UnreadCount where
  count : Int
  channel : String
  sender_profile_uuid : String
  deriving DecidableEq, Repr

structure LeadInfo where
  name : Option String
  unread_counts : Option (List UnreadCount)
  deriving DecidableEq, Repr

/-- Shape of a `/leads/api/leads/{uuid}` response as read by the handler. -/
structure LeadResp where
  lead : Option LeadInfo
  deriving DecidableEq, Repr

/-- Shape of the `/flows/api/linkedin-messages` response as read by the
handler (`data?`, `total?`). -/
structure MessagesResp where
  data : Option (List InboxMsg)
  total : Option Nat
  deriving DecidableEq, Repr

structure UnreadConv where
  contact_name : String
  contact_uuid : String
  unread_counts : List UnreadCount
  latest_message : String
  latest_message_at : String
  sender_profile_uuid : String
  conversation_uuid : String
  deriving DecidableEq, Repr

/-- The JSON payload returned by the handler; the two bookkeeping fields are
absent (`none`) in the empty-inbox early return. -/
structure UnreadResult where
  unread_conversations : List UnreadConv
  total_unread : Nat
  scanned_messages : Option Nat
  total_inbox_messages : Option (Option Nat)
  note : String
  deriving DecidableEq, Repr

/-- Step-1 query of the handler: scan limit
`String(Math.min(params.limit ?? 300, 1000))`, fixed inbox filter and
ordering, optional truthy sender-profile filter. -/
def unreadScanQuery (limit : Option Int) (sender_profile_uuid : Option String) :
    List (String × String) :=
  let query := [("limit", toString (min (limit.getD 300) 1000)),
                ("filter[type]", "inbox"),
                ("order_field", "created_at"),
                ("order_type", "desc")]
  match sender_profile_uuid with
  | some s => if s = "" then query else query ++ [("filter[sender_profile_uuid]", s)]
  | none => query

/-- Step-2 loop of the handler: insert `(msg.lead_uuid, msg)` into the
`leadLatestMessage` map unless the key is already present (JS `Map` keeps
insertion order, so the first occurrence wins). -/
def llmAux : List (String × InboxMsg) → List InboxMsg → List (String × InboxMsg)
  | acc, [] => acc
  | acc, msg :: rest =>
    if (lookupA acc msg.lead_uuid).isSome then llmAux acc rest
    else llmAux (acc ++ [(msg.lead_uuid, msg)]) rest

def leadLatestMessage (msgs : List InboxMsg) : List (String × InboxMsg) :=
  llmAux [] msgs

/-- Step-3 loop body: fetch the lead (a failed fetch skips the lead), read
`leadData.lead?.unread_counts ?? []`, and keep the lead only when that array
is non-empty and has an entry with positive count. -/
def buildConv (fetchLead : String → Except Unit LeadResp) (leadUuid : String)
    (latestMsg : InboxMsg) : Option UnreadConv :=
  match fetchLead leadUuid with
  | .error _ => none
  | .ok leadData =>
    let unreadCounts := (leadData.lead.bind LeadInfo.unread_counts).getD []
    if decide (0 < unreadCounts.length) && unreadCounts.any (fun uc => decide (0 < uc.count)) then
      some { contact_name := (leadData.lead.bind LeadInfo.name).getD "Unknown"
             contact_uuid := leadUuid
             unread_counts := unreadCounts
             latest_message := latestMsg.text
             latest_message_at := latestMsg.created_at
             sender_profile_uuid := latestMsg.sender_profile_uuid
             conversation_uuid := latestMsg.linkedin_conversation_uuid }
    else none

/-- The empty-inbox early return:
`{unread_conversations: [], total_unread: 0, note: "No inbox messages found"}`. -/
def emptyUnreadResult : UnreadResult :=
  { unread_conversations := []
    total_unread := 0
    scanned_messages := none
    total_inbox_messages := none
    note := "No inbox messages found" }

/-- The `get_unread_conversations` handler after the step-1 fetch:
`messagesResult` is the decoded message-list response and `fetchLead` the
per-lead detail fetch (`.error` when `grinfiRequest` throws). -/
def getUnreadConversations (messagesResult : MessagesResp)
    (fetchLead : String → Except Unit LeadResp) : UnreadResult :=
  match messagesResult.data with
  | none => emptyUnreadResult
  | some msgs =>
    if msgs.length = 0 then emptyUnreadResult
    else
      let convs := (leadLatestMessage msgs).filterMap (fun p => buildConv fetchLead p.1 p.2)
      { unread_conversations := convs
        total_unread := convs.length
        scanned_messages := some msgs.length
        total_inbox_messages := some messagesResult.total
        note := "Showing contacts with unread_counts > 0 from recent inbox messages" }

/-! ## `delete_mailbox` handler body -/

/-- The body built by the `delete_mailbox` handler: the required boolean
plus, when truthy, the optional reassignment target. -/
def deleteMailboxBody (automation_reassign_mailboxes : Bool)
    (automation_mailbox_to_reassign : Option String) : Json :=
  let body := [("automation_reassign_mailboxes", Json.bool automation_reassign_mailboxes)]
  match automation_mailbox_to_reassign with
  | some s =>
    if s = "" then Json.obj body
    else Json.obj (body ++ [("automation_mailbox_to_reassign", Json.str s)])
  | none => Json.obj body

/-! ## HTTP binding: authorization and session table -/

/-- The character class `[a-zA-Z0-9]` of the path-authorization regex. -/
def isAlnum (c : Char) : Bool :=
  ('a' ≤ c && c ≤ 'z') || ('A' ≤ c && c ≤ 'Z') || ('0' ≤ c && c ≤ '9')

/-- `url.match(/^\x2fmcp\x2f([a-zA-Z0-9]+)/)`: a URL starting with `/mcp/`
followed by at least one alphanumeric character matches, capturing the
maximal leading alphanumeric run after `/mcp/`. -/
def mcpPathCapture : List Char → Option (List Char)
  | '/' :: 'm' :: 'c' :: 'p' :: '/' :: rest =>
    let cap := rest.takeWhile isAlnum
    if cap.isEmpty then none else some cap
  | _ => none

structure AuthCheck where
  authorized : Bool
  mcpPath : Bool
  deriving DecidableEq, Repr

/-- `extractAuth` of http-server.ts: pattern 1 is the key embedded in the
URL path, pattern 2 the exact path `/mcp` with a `Bearer` authorization
header. -/
def extractAuthCore (url : List Char) (authHeader : Option (List Char)) (key : List Char) :
    AuthCheck :=
  match mcpPathCapture url with
  | some cap => { authorized := cap = key, mcpPath := true }
  | none =>
    if url = "/mcp".data then
      match authHeader with
      | some h =>
        if h = "Bearer ".data ++ key then { authorized := true, mcpPath := true }
        else { authorized := false, mcpPath := true }
      | none => { authorized := false, mcpPath := true }
    else { authorized := false, mcpPath := false }

def extractAuth (url : String) (authHeader : Option String) (key : String) : AuthCheck :=
  extractAuthCore url.data (authHeader.map String.data) key.data

/-- Modelled from the spec: the SDK `StreamableHTTPServerTransport`
(`transport.handleRequest`, not part of src/) performs session teardown on a
DELETE for the session it is bound to; closing the transport fires the
src-defined `transport.onclose` callback, which deletes the session id from
the `sessions` map.  Requests with other methods are dispatched on the
existing transport without changing the session table. -/
def transportHandleRequest (sessions : List String) (sid : String) (method : String) :
    List String :=
  if method = "DELETE" then sessions.filter (fun s => s ≠ sid) else sessions

inductive HttpOutcome where
  | health
  | notFound
  | unauthorized
  | existingSessionHandled
  | sessionNotFound
  | newSession (sid : String)
  deriving DecidableEq, Repr

/-- The http-server request handler: health check, authorization, routing to
an existing session's transport, the explicit DELETE branch, and new-session
creation (the fresh id is the generated session id under which the new
transport is registered). -/
def httpHandle (key : List Char) (sessions : List String) (method : String)
    (url : List Char) (authHeader : Option (List Char)) (sessionId : Option String)
    (freshId : String) : HttpOutcome × List String :=
  if url = "/health".data ∧ method = "GET" then (.health, sessions)
  else
    let auth := extractAuthCore url authHeader key
    if !auth.mcpPath then (.notFound, sessions)
    else if !auth.authorized then (.unauthorized, sessions)
    else
      match sessionId with
      | some sid =>
        if sid ∈ sessions then
          (.existingSessionHandled, transportHandleRequest sessions sid method)
        else if method = "DELETE" then (.sessionNotFound, sessions)
        else (.newSession freshId, sessions ++ [freshId])
      | none =>
        if method = "DELETE" then (.sessionNotFound, sessions)
        else (.newSession freshId, sessions ++ [freshId])

/-! ## Assoc-list lemmas -/

theorem getField_setField_self (fs : List (String × Json)) (k : String) (v : Json) :
    getField (setField fs k v) k = some v := by
  induction fs with
  | nil => simp [setField, getField]
  | cons kv rest ih =>
    by_cases h : kv.1 = k
    · simp [setField, getField, h]
    · simp [setField, getField, h, ih]

theorem getField_setField_ne (fs : List (String × Json)) (k k' : String) (v : Json)
    (h : k ≠ k') : getField (setField fs k v) k' = getField fs k' := by
  induction fs with
  | nil => simp [setField, getField, h]
  | cons kv rest ih =>
    obtain ⟨k0, v0⟩ := kv
    by_cases hk : k0 = k
    · subst hk
      simp [setField, getField, h]
    · by_cases hk' : k0 = k'
      · simp [setField, getField, hk, hk', Ne.symm h]
      · simp [setField, getField, hk, hk', ih]

theorem setField_of_getField (fs : List (String × Json)) (k : String) (v : Json)
    (h : getField fs k = some v) : setField fs k v = fs := by
  induction fs with
  | nil => simp [getField] at h
  | cons kv rest ih =>
    obtain ⟨k0, v0⟩ := kv
    by_cases hk : k0 = k
    · have hv : v0 = v := by simpa [getField, hk] using h
      simp [setField, hk, hv]
    · have hrest : getField rest k = some v := by simpa [getField, hk] using h
      simp [setField, hk, ih hrest]

theorem setField_of_getField_none (fs : List (String × Json)) (k : String) (v : Json)
    (h : getField fs k = none) : setField fs k v = fs ++ [(k, v)] := by
  induction fs with
  | nil => simp [setField]
  | cons kv rest ih =>
    obtain ⟨k0, v0⟩ := kv
    by_cases hk : k0 = k
    · simp [getField, hk] at h
    · have hrest : getField rest k = none := by simpa [getField, hk] using h
      simp [setField, hk, ih hrest]

theorem getField_append_left (fs gs : List (String × Json)) (k : String) (v : Json)
    (h : getField fs k = some v) : getField (fs ++ gs) k = some v := by
  induction fs with
  | nil => simp [getField] at h
  | cons kv rest ih =>
    obtain ⟨k0, v0⟩ := kv
    by_cases hk : k0 = k
    · have hv : v0 = v := by simpa [getField, hk] using h
      simp [getField, hk, hv]
    · have hrest : getField rest k = some v := by simpa [getField, hk] using h
      simp [getField, hk, ih hrest]

theorem lookupA_setA_self {α : Type} (q : List (String × α)) (k : String) (v : α) :
    lookupA (setA q k v) k = some v := by
  induction q with
  | nil => simp [setA, lookupA]
  | cons kv rest ih =>
    by_cases h : kv.1 = k
    · simp [setA, lookupA, h]
    · simp [setA, lookupA, h, ih]

theorem lookupA_setA_ne {α : Type} (q : List (String × α)) (k k' : String) (v : α)
    (h : k ≠ k') : lookupA (setA q k v) k' = lookupA q k' := by
  induction q with
  | nil => simp [setA, lookupA, h]
  | cons kv rest ih =>
    obtain ⟨k0, v0⟩ := kv
    by_cases hk : k0 = k
    · subst hk
      simp [setA, lookupA, h]
    · by_cases hk' : k0 = k'
      · simp [setA, lookupA, hk, hk', Ne.symm h]
      · simp [setA, lookupA, hk, hk', ih]

theorem mem_setA {α : Type} (q : List (String × α)) (k' : String) (v' : α) (k : String) (v : α)
    (h : (k, v) ∈ setA q k' v') : (k, v) ∈ q ∨ (k = k' ∧ v = v') := by
  induction q with
  | nil =>
    simp [setA] at h
    exact Or.inr h
  | cons kv rest ih =>
    obtain ⟨k0, v0⟩ := kv
    by_cases hk : k0 = k'
    · subst hk
      simp [setA] at h
      rcases h with ⟨h1, h2⟩ | h
      · exact Or.inr ⟨h1, h2⟩
      · exact Or.inl (List.mem_cons_of_mem _ h)
    · simp [setA, hk] at h
      rcases h with ⟨h1, h2⟩ | h
      · exact Or.inl (by simp [h1, h2])
      · rcases ih h with h2 | h2
        · exact Or.inl (List.mem_cons_of_mem _ h2)
        · exact Or.inr h2

/-! ## C2: response processing of `grinfiRequest` -/

/-- C2: for every upstream response, `grinfiRequest` returns the synthetic
success object on status 204 regardless of the body; it throws an error
embedding the numeric status code and the raw body text exactly when the
status is non-OK (204 itself is in the OK range and is caught first); and on
an OK status whose body fails to `JSON.parse` it returns
`{rawResponse: <text>}` — it never produces an error on a 2xx status. -/
theorem grinfiRequest_response_contract (status : Nat) (text : String)
    (parse : String → Option Json) :
    (status = 204 → processResponse status text parse = .ok successObj) ∧
    ((∃ e, processResponse status text parse = .error e) ↔ statusOk status = false) ∧
    (statusOk status = false →
      processResponse status text parse =
        .error ("Grinfi API error " ++ toString status ++ ": " ++ text)) ∧
    (statusOk status = true → status ≠ 204 → parse text = none →
      processResponse status text parse = .ok (Json.obj [("rawResponse", Json.str text)])) ∧
    (statusOk status = true → status ≠ 204 → ∀ v, parse text = some v →
      processResponse status text parse = .ok v) := by
  refine ⟨?_, ?_, ?_, ?_, ?_⟩
  · intro h
    simp [processResponse, h]
  · constructor
    · rintro ⟨e, he⟩
      by_cases h204 : status = 204
      · simp [processResponse, h204] at he
      · by_cases hok : statusOk status = true
        · rcases hp : parse text with _ | v <;>
            simp [processResponse, h204, hok, hp] at he
        · simpa using hok
    · intro hok
      have h204 : status ≠ 204 := by
        intro h
        rw [h] at hok
        simp [statusOk] at hok
      exact ⟨"Grinfi API error " ++ toString status ++ ": " ++ text,
        by simp [processResponse, h204, hok]⟩
  · intro hok
    have h204 : status ≠ 204 := by
      intro h
      rw [h] at hok
      simp [statusOk] at hok
    simp [processResponse, h204, hok]
  · intro hok h204 hp
    simp [processResponse, h204, hok, hp]
  · intro hok h204 v hp
    simp [processResponse, h204, hok, hp]

/-- A parse function standing for `JSON.parse` on a body that is not valid
JSON. -/
def parseAlwaysFails : String → Option Json := fun _ => none

/-- C2 witness: the contract evaluated at statuses 204, 404 and 200 with an
unparsable body. -/
theorem grinfiRequest_response_contract_witness :
    processResponse 204 "ignored" parseAlwaysFails = .ok successObj ∧
    processResponse 404 "not found" parseAlwaysFails =
      .error "Grinfi API error 404: not found" ∧
    processResponse 200 "oops" parseAlwaysFails =
      .ok (Json.obj [("rawResponse", Json.str "oops")]) := by
  refine ⟨?_, ?_, ?_⟩
  · exact (grinfiRequest_response_contract 204 "ignored" parseAlwaysFails).1 rfl
  · exact (grinfiRequest_response_contract 404 "not found" parseAlwaysFails).2.2.1 (by decide)
  · exact (grinfiRequest_response_contract 200 "oops" parseAlwaysFails).2.2.2.1
      (by decide) (by decide) rfl

/-! ## C4: aggregator scan limit -/

/-- C4: the upstream scan limit sent by `get_unread_conversations` is
`min(requested_limit, 1000)`, `300` when no limit is requested, and in
particular `1000` whenever the requested limit exceeds 1000. -/
theorem unread_scan_limit (l : Int) (spu : Option String) :
    lookupA (unreadScanQuery (some l) spu) "limit" = some (toString (min l 1000)) ∧
    lookupA (unreadScanQuery none spu) "limit" = some "300" ∧
    (1000 < l → lookupA (unreadScanQuery (some l) spu) "limit" = some "1000") := by
  have hbase : ∀ (lim : Option Int),
      lookupA (unreadScanQuery lim spu) "limit" = some (toString (min (lim.getD 300) 1000)) := by
    intro lim
    cases spu with
    | none => simp [unreadScanQuery, lookupA]
    | some s =>
      by_cases hs : s = ""
      · simp [unreadScanQuery, hs, lookupA]
      · simp [unreadScanQuery, hs, lookupA]
  refine ⟨by simpa using hbase (some l), by simpa using hbase none, ?_⟩
  intro hl
  have hmin : min l 1000 = 1000 := min_eq_right hl.le
  simpa [hmin] using hbase (some l)

/-- C4 witness: a requested limit of 5000 is capped at 1000, and the
default is 300. -/
theorem unread_scan_limit_witness :
    lookupA (unreadScanQuery (some 5000) none) "limit" = some "1000" ∧
    lookupA (unreadScanQuery none (some "sp")) "limit" = some "300" := by
  constructor
  · exact (unread_scan_limit 5000 none).2.2 (by decide)
  · exact (unread_scan_limit 5000 (some "sp")).2.1

/-! ## C8: DELETE request bodies are dropped by the forwarder -/

/-- C8: the `delete_mailbox` handler builds a JSON body from
`automation_reassign_mailboxes` and `automation_mailbox_to_reassign` and
passes it to `grinfiRequest` with method DELETE, but `grinfiRequest` attaches
a body only for POST/PUT/PATCH, so the outgoing DELETE request carries no
body — the same body would be attached for POST. -/
theorem delete_mailbox_body_dropped :
    (∀ (b : Bool) (s : Option String),
      attachedBody "DELETE" (some (deleteMailboxBody b s)) = none) ∧
    deleteMailboxBody true (some "m2") =
      Json.obj [("automation_reassign_mailboxes", Json.bool true),
                ("automation_mailbox_to_reassign", Json.str "m2")] ∧
    attachedBody "POST" (some (deleteMailboxBody true (some "m2"))) =
      some (deleteMailboxBody true (some "m2")) := by
  refine ⟨?_, by decide, by decide⟩
  intro b s
  have hobj : ∃ fs, deleteMailboxBody b s = Json.obj fs := by
    cases s with
    | none => exact ⟨_, rfl⟩
    | some t =>
      by_cases ht : t = "" <;> simp [deleteMailboxBody, ht]
  rcases hobj with ⟨fs, hfs⟩
  rw [hfs]
  simp [attachedBody, truthy]

/-! ## C7: unset parameters never reach the query string -/

theorem mem_assembleSearchParamsAux (qp : List (String × Option String))
    (acc : List (String × String)) (k v : String)
    (h : (k, v) ∈ assembleSearchParamsAux acc qp) :
    (k, v) ∈ acc ∨ (v ≠ "" ∧ (k, some v) ∈ qp) := by
  induction qp generalizing acc with
  | nil =>
    simp [assembleSearchParamsAux] at h
    exact Or.inl h
  | cons kv rest ih =>
    obtain ⟨k0, ov⟩ := kv
    cases ov with
    | none =>
      rcases ih _ h with h1 | h1
      · exact Or.inl h1
      · exact Or.inr ⟨h1.1, List.mem_cons_of_mem _ h1.2⟩
    | some w =>
      by_cases hw : w = ""
      · subst hw
        simp only [assembleSearchParamsAux, if_pos rfl] at h
        rcases ih _ h with h1 | h1
        · exact Or.inl h1
        · exact Or.inr ⟨h1.1, List.mem_cons_of_mem _ h1.2⟩
      · simp only [assembleSearchParamsAux, if_neg hw] at h
        rcases ih _ h with h1 | h1
        · rcases mem_setA _ _ _ _ _ h1 with h2 | h2
          · exact Or.inl h2
          · exact Or.inr ⟨h2.2 ▸ hw, by simp [h2.1, h2.2]⟩
        · exact Or.inr ⟨h1.1, List.mem_cons_of_mem _ h1.2⟩

theorem mem_buildQueryFilters (params : List (String × Json)) (ff : List String)
    (q : List (String × String)) (k v : String)
    (h : (k, v) ∈ buildQueryFilters params q ff) :
    (k, v) ∈ q ∨ ∃ f ∈ ff, k = "filter[" ++ f ++ "]" ∧ (getField params f).isSome = true := by
  induction ff generalizing q with
  | nil =>
    simp [buildQueryFilters] at h
    exact Or.inl h
  | cons f rest ih =>
    cases hf : getField params f with
    | none =>
      simp only [buildQueryFilters, hf] at h
      rcases ih _ h with h1 | ⟨g, hg, h1⟩
      · exact Or.inl h1
      · exact Or.inr ⟨g, List.mem_cons_of_mem _ hg, h1⟩
    | some w =>
      simp only [buildQueryFilters, hf] at h
      rcases ih _ h with h1 | ⟨g, hg, h1⟩
      · rcases mem_setA _ _ _ _ _ h1 with h2 | h2
        · exact Or.inl h2
        · exact Or.inr ⟨f, List.mem_cons_self _ _, h2.1, by simp [hf]⟩
      · exact Or.inr ⟨g, List.mem_cons_of_mem _ hg, h1⟩

theorem mem_setIfPresent (params : List (String × Json)) (pkey qkey : String)
    (q : List (String × String)) (k v : String)
    (h : (k, v) ∈ setIfPresent params pkey qkey q) :
    (k, v) ∈ q ∨ (k = qkey ∧ (getField params pkey).isSome = true) := by
  cases hf : getField params pkey with
  | none =>
    simp only [setIfPresent, hf] at h
    exact Or.inl h
  | some w =>
    simp only [setIfPresent, hf] at h
    rcases mem_setA _ _ _ _ _ h with h1 | h1
    · exact Or.inl h1
    · exact Or.inr ⟨h1.1, by simp [hf]⟩

theorem mem_setIfTruthy (params : List (String × Json)) (pkey qkey : String)
    (q : List (String × String)) (k v : String)
    (h : (k, v) ∈ setIfTruthy params pkey qkey q) :
    (k, v) ∈ q ∨ (k = qkey ∧ fieldTruthy params pkey = true) := by
  cases hf : getField params pkey with
  | none =>
    simp only [setIfTruthy, hf] at h
    exact Or.inl h
  | some w =>
    simp only [setIfTruthy, hf] at h
    by_cases htr : truthy w = true
    · rw [if_pos htr] at h
      rcases mem_setA _ _ _ _ _ h with h1 | h1
      · exact Or.inl h1
      · exact Or.inr ⟨h1.1, by simp [fieldTruthy, hf, htr]⟩
    · rw [if_neg htr] at h
      exact Or.inl h

theorem lookupA_setIfTruthy_ne (params : List (String × Json)) (pkey qkey key : String)
    (q : List (String × String)) (h : qkey ≠ key) :
    lookupA (setIfTruthy params pkey qkey q) key = lookupA q key := by
  cases hf : getField params pkey with
  | none => simp only [setIfTruthy, hf]
  | some w =>
    simp only [setIfTruthy, hf]
    by_cases htr : truthy w = true
    · rw [if_pos htr]
      exact lookupA_setA_ne _ _ _ _ h
    · rw [if_neg htr]

theorem lookupA_buildQueryFilters_ne (params : List (String × Json)) (ff : List String)
    (q : List (String × String)) (key : String)
    (h : ∀ f ∈ ff, ("filter[" ++ f ++ "]" : String) ≠ key) :
    lookupA (buildQueryFilters params q ff) key = lookupA q key := by
  induction ff generalizing q with
  | nil => rfl
  | cons f rest ih =>
    cases hf : getField params f with
    | none =>
      simp only [buildQueryFilters, hf]
      exact ih _ (fun g hg => h g (List.mem_cons_of_mem _ hg))
    | some w =>
      simp only [buildQueryFilters, hf]
      rw [ih _ (fun g hg => h g (List.mem_cons_of_mem _ hg))]
      exact lookupA_setA_ne _ _ _ _ (h f (List.mem_cons_self _ _))

theorem filter_key_inj (f g : String)
    (h : ("filter[" ++ f ++ "]" : String) = "filter[" ++ g ++ "]") : f = g := by
  have hd := congrArg String.data h
  simp only [String.data_append] at hd
  have h1 := List.append_cancel_right hd
  have h2 := List.append_cancel_left h1
  cases f
  cases g
  simp_all

/-- C7: query-string assembly never emits unset parameters.  In
`grinfiRequest` every entry whose value is undefined or the empty string is
omitted from the assembled search parameters; every key of a `buildQuery`
result comes from a parameter that was actually set, so an optional
parameter left unset contributes no key; and a present (truthy) `search`
parameter is mapped to the `filter[q]` key. -/
theorem query_assembly_omits_unset (qp : List (String × Option String))
    (params : List (String × Json)) (ff : Option (List String)) (k v : String) (s : Json) :
    ((k, v) ∈ assembleSearchParams qp → v ≠ "" ∧ (k, some v) ∈ qp) ∧
    ((k, v) ∈ buildQuery params ff →
      (k = "limit" ∧ (getField params "limit").isSome = true) ∨
      (k = "offset" ∧ (getField params "offset").isSome = true) ∨
      (k = "order_field" ∧ fieldTruthy params "order_field" = true) ∨
      (k = "order_type" ∧ fieldTruthy params "order_type" = true) ∨
      (k = "filter[q]" ∧ fieldTruthy params "search" = true) ∨
      (∃ f ∈ ff.getD [], k = "filter[" ++ f ++ "]" ∧ (getField params f).isSome = true)) ∧
    (getField params "search" = some s → truthy s = true →
      (∀ f ∈ ff.getD [], f ≠ "q") →
      lookupA (buildQuery params ff) "filter[q]" = some (jsToString s)) := by
  have hbase : ∀ (hm : (k, v) ∈ setIfTruthy params "search" "filter[q]"
      (setIfTruthy params "order_type" "order_type"
        (setIfTruthy params "order_field" "order_field"
          (setIfPresent params "offset" "offset"
            (setIfPresent params "limit" "limit" []))))),
      (k = "limit" ∧ (getField params "limit").isSome = true) ∨
      (k = "offset" ∧ (getField params "offset").isSome = true) ∨
      (k = "order_field" ∧ fieldTruthy params "order_field" = true) ∨
      (k = "order_type" ∧ fieldTruthy params "order_type" = true) ∨
      (k = "filter[q]" ∧ fieldTruthy params "search" = true) := by
    intro hm
    rcases mem_setIfTruthy _ _ _ _ _ _ hm with hm | hm
    · rcases mem_setIfTruthy _ _ _ _ _ _ hm with hm | hm
      · rcases mem_setIfTruthy _ _ _ _ _ _ hm with hm | hm
        · rcases mem_setIfPresent _ _ _ _ _ _ hm with hm | hm
          · rcases mem_setIfPresent _ _ _ _ _ _ hm with hm | hm
            · simp at hm
            · exact Or.inl hm
          · exact Or.inr (Or.inl hm)
        · exact Or.inr (Or.inr (Or.inl hm))
      · exact Or.inr (Or.inr (Or.inr (Or.inl hm)))
    · exact Or.inr (Or.inr (Or.inr (Or.inr hm)))
  have hlook : getField params "search" = some s → truthy s = true →
      lookupA (setIfTruthy params "search" "filter[q]"
        (setIfTruthy params "order_type" "order_type"
          (setIfTruthy params "order_field" "order_field"
            (setIfPresent params "offset" "offset"
              (setIfPresent params "limit" "limit" []))))) "filter[q]" =
        some (jsToString s) := by
    intro hs htr
    simp only [setIfTruthy, hs]
    rw [if_pos htr]
    exact lookupA_setA_self _ _ _
  refine ⟨?_, ?_, ?_⟩
  · intro h
    rcases mem_assembleSearchParamsAux qp [] k v h with h1 | h1
    · simp at h1
    · exact h1
  · intro h
    cases ff with
    | none =>
      simp only [buildQuery] at h
      rcases hbase h with h1 | h1 | h1 | h1 | h1 <;> simp [h1]
    | some l =>
      simp only [buildQuery] at h
      rcases mem_buildQueryFilters _ _ _ _ _ h with h1 | ⟨f, hf, h1⟩
      · rcases hbase h1 with h2 | h2 | h2 | h2 | h2 <;> simp [h2]
      · refine Or.inr (Or.inr (Or.inr (Or.inr (Or.inr ⟨f, ?_, h1⟩))))
        simpa using hf
  · intro hs htr hq
    cases ff with
    | none =>
      simp only [buildQuery]
      exact hlook hs htr
    | some l =>
      simp only [buildQuery]
      rw [lookupA_buildQueryFilters_ne]
      · exact hlook hs htr
      · intro f hf heq
        exact hq f (by simpa using hf) (filter_key_inj f "q" heq)

/-- C7 witness: a set entry survives assembly, and a concrete `buildQuery`
call maps `search` to `filter[q]`. -/
theorem query_assembly_omits_unset_witness :
    ("x" ≠ "" ∧ ("a", some "x") ∈
      [("a", some "x"), ("b", (none : Option String)), ("c", some "")]) ∧
    lookupA (buildQuery [("search", Json.str "joe")] (some ["status"])) "filter[q]" =
      some "joe" := by
  constructor
  · exact (query_assembly_omits_unset
      [("a", some "x"), ("b", none), ("c", some "")] [] none "a" "x" Json.null).1
      (by decide)
  · exact (query_assembly_omits_unset [] [("search", Json.str "joe")] (some ["status"])
      "" "" (Json.str "joe")).2.2 rfl (by decide) (by decide)

/-! ## C10: path-segment authorization -/

theorem takeWhile_append_eq (p : Char → Bool) (l1 l2 : List Char)
    (h1 : ∀ c ∈ l1, p c = true)
    (h2 : l2 = [] ∨ ∃ c cs, l2 = c :: cs ∧ p c = false) :
    (l1 ++ l2).takeWhile p = l1 := by
  induction l1 with
  | nil =>
    rcases h2 with h2 | ⟨c, cs, h2, hc⟩
    · simp [h2]
    · simp [h2, List.takeWhile_cons, hc]
  | cons a l ih =>
    have ha : p a = true := h1 a (List.mem_cons_self _ _)
    have ih2 := ih (fun c hc => h1 c (List.mem_cons_of_mem _ hc))
    simp [List.takeWhile_cons, ha, ih2]

theorem all_takeWhile (p : Char → Bool) (l : List Char) :
    ∀ c ∈ l.takeWhile p, p c = true := fun _ hc => List.mem_takeWhile_imp hc

theorem string_data_inj (s t : String) (h : s.data = t.data) : s = t := by
  cases s
  cases t
  simp_all

theorem mcpPathCapture_inv (url cap : List Char) (h : mcpPathCapture url = some cap) :
    ∃ rest, url = '/' :: 'm' :: 'c' :: 'p' :: '/' :: rest ∧
      cap = rest.takeWhile isAlnum := by
  unfold mcpPathCapture at h
  split at h
  next rest =>
    dsimp only at h
    by_cases hemp : (rest.takeWhile isAlnum).isEmpty = true
    · rw [if_pos hemp] at h
      exact absurd h (by simp)
    · rw [if_neg hemp] at h
      injection h with h
      exact ⟨rest, rfl, h.symm⟩
  next =>
    exact absurd h (by simp)

theorem mcpPathCapture_alnum (url cap : List Char) (h : mcpPathCapture url = some cap) :
    ∀ d ∈ cap, isAlnum d = true := by
  obtain ⟨rest, _, hcap⟩ := mcpPathCapture_inv url cap h
  intro d hd
  exact all_takeWhile isAlnum rest d (hcap ▸ hd)

theorem extractAuthCore_eq_capture (url : List Char) (hdr : Option (List Char))
    (key cap : List Char) (h : mcpPathCapture url = some cap) :
    extractAuthCore url hdr key = { authorized := decide (cap = key), mcpPath := true } := by
  simp [extractAuthCore, h]

theorem extractAuthCore_eq_mcp (hdr : Option (List Char)) (key url : List Char)
    (h : mcpPathCapture url = none) (hu : url = "/mcp".data) :
    extractAuthCore url hdr key =
      (match hdr with
       | some hh =>
         if hh = "Bearer ".data ++ key then { authorized := true, mcpPath := true }
         else { authorized := false, mcpPath := true }
       | none => { authorized := false, mcpPath := true }) := by
  subst hu
  have h0 : mcpPathCapture "/mcp".data = none := rfl
  simp [extractAuthCore, h0]

theorem extractAuthCore_eq_other (url : List Char) (hdr : Option (List Char))
    (key : List Char) (h : mcpPathCapture url = none) (hu : url ≠ "/mcp".data) :
    extractAuthCore url hdr key = { authorized := false, mcpPath := false } := by
  simp [extractAuthCore, h, hu]

/-- C10: a URL that begins with `/mcp/` followed by a non-empty alphanumeric
segment is an MCP-path request authorized exactly when that leading segment
equals the configured key; the characters after the segment are ignored; and
a key containing a non-alphanumeric character is never authorized through
the path variant — only through the Bearer header on the exact path `/mcp`. -/
theorem extractAuth_path_segment (key seg rest : String) (hdr : Option String)
    (hseg : seg ≠ "")
    (halnum : ∀ c ∈ seg.data, isAlnum c = true)
    (hrest : rest = "" ∨ ∃ c cs, rest.data = c :: cs ∧ isAlnum c = false) :
    extractAuth ("/mcp/" ++ seg ++ rest) hdr key =
      { authorized := decide (seg = key), mcpPath := true } ∧
    extractAuth ("/mcp/" ++ seg ++ rest) hdr key = extractAuth ("/mcp/" ++ seg) hdr key ∧
    ((∃ c ∈ key.data, isAlnum c = false) → ∀ (url : String) (h2 : Option String),
      (extractAuth url h2 key).authorized = true →
      url = "/mcp" ∧ h2 = some ("Bearer " ++ key)) := by
  have hsegd : seg.data ≠ [] := by
    intro hd
    exact hseg (string_data_inj seg "" hd)
  have hcap : ∀ (tail : String),
      tail = "" ∨ (∃ c cs, tail.data = c :: cs ∧ isAlnum c = false) →
      extractAuth ("/mcp/" ++ seg ++ tail) hdr key =
        { authorized := decide (seg = key), mcpPath := true } := by
    intro tail htail
    have hdata : ("/mcp/" ++ seg ++ tail).data =
        '/' :: 'm' :: 'c' :: 'p' :: '/' :: (seg.data ++ tail.data) := by
      simp [String.data_append]
    have htail2 : tail.data = [] ∨ ∃ c cs, tail.data = c :: cs ∧ isAlnum c = false := by
      rcases htail with h | h
      · exact Or.inl (by simp [h])
      · exact Or.inr h
    have htake : (seg.data ++ tail.data).takeWhile isAlnum = seg.data :=
      takeWhile_append_eq isAlnum seg.data tail.data halnum htail2
    have hcapeq : mcpPathCapture ("/mcp/" ++ seg ++ tail).data = some seg.data := by
      rw [hdata]
      simp [mcpPathCapture, htake, hsegd]
    unfold extractAuth extractAuthCore
    rw [hcapeq]
    have hiff : seg.data = key.data ↔ seg = key :=
      ⟨fun h => string_data_inj _ _ h, fun h => by rw [h]⟩
    have hdec : decide (seg.data = key.data) = decide (seg = key) := by
      simp only [decide_eq_decide]
      exact hiff
    simp [hdec]
  have h1 := hcap rest hrest
  have h2 := hcap "" (Or.inl rfl)
  refine ⟨h1, by rw [h1, ← h2]; simp, ?_⟩
  intro ⟨c, hck, hc⟩ url h2 hauth
  unfold extractAuth at hauth
  cases hcapu : mcpPathCapture url.data with
  | some cap =>
    rw [extractAuthCore_eq_capture _ _ _ _ hcapu] at hauth
    simp at hauth
    have hcapkey : cap = key.data := hauth
    have hcalnum := mcpPathCapture_alnum url.data cap hcapu
    exact absurd (hcalnum c (hcapkey ▸ hck)) (by simp [hc])
  | none =>
    by_cases hurl : url.data = "/mcp".data
    · refine ⟨string_data_inj _ _ hurl, ?_⟩
      rw [extractAuthCore_eq_mcp _ _ _ hcapu hurl] at hauth
      cases h2 with
      | none => simp at hauth
      | some s =>
        simp only [Option.map_some'] at hauth
        by_cases hbear : s.data = "Bearer ".data ++ key.data
        · have hs : s = "Bearer " ++ key := by
            apply string_data_inj
            rw [hbear, String.data_append]
          rw [hs]
        · rw [if_neg hbear] at hauth
          simp at hauth
    · rw [extractAuthCore_eq_other _ _ _ hcapu hurl] at hauth
      simp at hauth

/-- C10 witness: the key `secret123` authorizes `/mcp/secret123/extra`
(trailing characters ignored); the key `my-key`, which contains a
non-alphanumeric character, is never authorized through the path variant;
and `/mcp` with the Bearer header still authorizes `my-key`. -/
theorem extractAuth_path_segment_witness :
    extractAuth ("/mcp/" ++ "secret123" ++ "/extra") none "secret123" =
      { authorized := true, mcpPath := true } ∧
    ((extractAuth "/mcp/my-key" none "my-key").authorized = true → False) ∧
    extractAuth "/mcp" (some "Bearer my-key") "my-key" =
      { authorized := true, mcpPath := true } := by
  have h := extractAuth_path_segment "secret123" "secret123" "/extra" none
    (by decide) (by decide) (Or.inr ⟨'/', "extra".data, by decide, by decide⟩)
  refine ⟨by rw [h.1]; decide, ?_, by decide⟩
  intro hauth
  have h3 := (extractAuth_path_segment "my-key" "x" "" none (by decide) (by decide)
    (Or.inl rfl)).2.2 ⟨'-', by decide, by decide⟩ "/mcp/my-key" none hauth
  exact absurd h3.1 (by decide)

/-! ## C9: session table on the HTTP binding -/

theorem extractAuthCore_authorized_mcpPath (url : List Char) (hdr : Option (List Char))
    (key : List Char) (h : (extractAuthCore url hdr key).authorized = true) :
    (extractAuthCore url hdr key).mcpPath = true := by
  cases hcap : mcpPathCapture url with
  | some cap => rw [extractAuthCore_eq_capture _ _ _ _ hcap]
  | none =>
    by_cases hurl : url = "/mcp".data
    · rw [extractAuthCore_eq_mcp _ _ _ hcap hurl]
      cases hdr with
      | none => rfl
      | some hh =>
        dsimp only
        by_cases hb : hh = "Bearer ".data ++ key
        · rw [if_pos hb]
        · rw [if_neg hb]
    · rw [extractAuthCore_eq_other _ _ _ hcap hurl] at h
      simp at h

theorem extractAuthCore_health_not_authorized (hdr : Option (List Char)) (key : List Char) :
    (extractAuthCore "/health".data hdr key).authorized = false := by
  rw [extractAuthCore_eq_other "/health".data hdr key rfl (by decide)]

/-- C9: on the HTTP binding, an authorized DELETE with an absent or unknown
session id yields the not-found response and leaves the session table
unchanged; an authorized DELETE with a known session id removes exactly that
session from the table; and a request presenting an id that is not in the
table is handled exactly like a request presenting no id at all. -/
theorem session_delete_behavior (key : List Char) (sessions : List String) (method : String)
    (url : List Char) (hdr : Option (List Char)) (sid : String) (freshId : String)
    (hauth : (extractAuthCore url hdr key).authorized = true) :
    (sid ∉ sessions →
      httpHandle key sessions "DELETE" url hdr (some sid) freshId =
        (.sessionNotFound, sessions)) ∧
    (httpHandle key sessions "DELETE" url hdr none freshId = (.sessionNotFound, sessions)) ∧
    (sid ∈ sessions →
      httpHandle key sessions "DELETE" url hdr (some sid) freshId =
        (.existingSessionHandled, sessions.filter (fun s => s ≠ sid)) ∧
      sid ∉ (httpHandle key sessions "DELETE" url hdr (some sid) freshId).2) ∧
    (sid ∉ sessions →
      httpHandle key sessions method url hdr (some sid) freshId =
        httpHandle key sessions method url hdr none freshId) := by
  have hmcp := extractAuthCore_authorized_mcpPath url hdr key hauth
  have hurl : url ≠ "/health".data := by
    intro h
    rw [h] at hauth
    rw [extractAuthCore_health_not_authorized hdr key] at hauth
    exact Bool.false_ne_true hauth
  have hhealth : ∀ (m : String), ¬(url = "/health".data ∧ m = "GET") := by
    intro m hm
    exact hurl hm.1
  refine ⟨?_, ?_, ?_, ?_⟩
  · intro hsid
    simp only [httpHandle, if_neg (hhealth "DELETE"), hmcp, hauth]
    simp [hsid]
  · simp only [httpHandle, if_neg (hhealth "DELETE"), hmcp, hauth]
    simp
  · intro hsid
    constructor
    · simp only [httpHandle, if_neg (hhealth "DELETE"), hmcp, hauth]
      simp [hsid, transportHandleRequest]
    · simp only [httpHandle, if_neg (hhealth "DELETE"), hmcp, hauth]
      simp [hsid, transportHandleRequest]
  · intro hsid
    simp only [httpHandle, if_neg (hhealth method), hmcp, hauth]
    simp [hsid]

/-- C9 witness: with key `k`, path `/mcp` and header `Bearer k`, deleting
the known session `s1` from the table `[s1, s2]` removes it, and deleting
the unknown session `zz` yields the not-found response. -/
theorem session_delete_behavior_witness :
    ("zz" ∉ ["s1", "s2"] ∧
      httpHandle "k".data ["s1", "s2"] "DELETE" "/mcp".data (some "Bearer k".data)
        (some "zz") "f" = (.sessionNotFound, ["s1", "s2"])) ∧
    ("s1" ∈ ["s1", "s2"] ∧
      httpHandle "k".data ["s1", "s2"] "DELETE" "/mcp".data (some "Bearer k".data)
        (some "s1") "f" = (.existingSessionHandled, ["s2"])) := by
  have hauth : (extractAuthCore "/mcp".data (some "Bearer k".data) "k".data).authorized = true := by
    decide
  constructor
  · refine ⟨by decide, ?_⟩
    exact (session_delete_behavior "k".data ["s1", "s2"] "DELETE" "/mcp".data
      (some "Bearer k".data) "zz" "f" hauth).1 (by decide)
  · refine ⟨by decide, ?_⟩
    have h := ((session_delete_behavior "k".data ["s1", "s2"] "DELETE" "/mcp".data
      (some "Bearer k".data) "s1" "f" hauth).2.2.1 (by decide)).1
    simpa using h

/-! ## Enrichment lemmas -/

theorem truthy_eLWL (l : Json) : truthy (enrichLeadWithLinks l) = truthy l := by
  cases l <;> rfl

theorem isObjType_eLWL (l : Json) : isObjType (enrichLeadWithLinks l) = isObjType l := by
  cases l <;> rfl

theorem getField_setUrlField_ne (fs : List (String × Json)) (sk dk k : String)
    (mk : Json → String) (h : k ≠ dk) :
    getField (setUrlField fs sk dk mk) k = getField fs k := by
  cases hs : getField fs sk with
  | none => simp only [setUrlField, hs]
  | some v =>
    simp only [setUrlField, hs]
    by_cases ht : truthy v = true
    · rw [if_pos ht]
      exact getField_setField_ne _ _ _ _ (Ne.symm h)
    · rw [if_neg ht]

theorem getField_elf_ne (fs : List (String × Json)) (k : String)
    (h1 : k ≠ "_grinfi_contact_url") (h2 : k ≠ "_linkedin_url") :
    getField (enrichLeadFields fs) k = getField fs k := by
  unfold enrichLeadFields
  rw [getField_setUrlField_ne _ _ _ _ _ h2, getField_setUrlField_ne _ _ _ _ _ h1]

theorem setUrlField_eq_set (fs : List (String × Json)) (sk dk : String) (mk : Json → String)
    (v : Json) (h : getField fs sk = some v) (ht : truthy v = true) :
    setUrlField fs sk dk mk = setField fs dk (Json.str (mk v)) := by
  simp only [setUrlField, h, if_pos ht]

theorem setUrlField_stable (gs fs : List (String × Json)) (sk dk : String) (mk : Json → String)
    (hread : getField gs sk = getField fs sk)
    (hval : ∀ v, getField fs sk = some v → truthy v = true →
      getField gs dk = some (Json.str (mk v))) :
    setUrlField gs sk dk mk = gs := by
  cases hs : getField fs sk with
  | none => simp only [setUrlField, hread, hs]
  | some v =>
    by_cases ht : truthy v = true
    · have hd := hval v hs ht
      simp only [setUrlField, hread, hs, if_pos ht]
      exact setField_of_getField _ _ _ hd
    · simp only [setUrlField, hread, hs, if_neg ht]

theorem enrichLeadFields_idem (fs : List (String × Json)) :
    enrichLeadFields (enrichLeadFields fs) = enrichLeadFields fs := by
  show setUrlField (setUrlField (enrichLeadFields fs) "uuid" "_grinfi_contact_url" contactUrl)
      "linkedin" "_linkedin_url" linkedinUrl = enrichLeadFields fs
  have h1 : setUrlField (enrichLeadFields fs) "uuid" "_grinfi_contact_url" contactUrl =
      enrichLeadFields fs := by
    apply setUrlField_stable _ fs
    · exact getField_elf_ne fs "uuid" (by decide) (by decide)
    · intro v hv ht
      unfold enrichLeadFields
      rw [getField_setUrlField_ne _ _ _ _ _ (by decide)]
      rw [setUrlField_eq_set _ _ _ _ _ hv ht]
      exact getField_setField_self _ _ _
  rw [h1]
  apply setUrlField_stable _ (setUrlField fs "uuid" "_grinfi_contact_url" contactUrl)
  · unfold enrichLeadFields
    exact getField_setUrlField_ne _ _ _ _ _ (by decide)
  · intro v hv ht
    unfold enrichLeadFields
    rw [setUrlField_eq_set _ _ _ _ _ hv ht]
    exact getField_setField_self _ _ _

theorem enrichLeadWithLinks_idem (l : Json) :
    enrichLeadWithLinks (enrichLeadWithLinks l) = enrichLeadWithLinks l := by
  cases l <;> simp [enrichLeadWithLinks, enrichLeadFields_idem]

theorem getField_eNL_ne (fs : List (String × Json)) (k : String) (h : k ≠ "lead") :
    getField (enrichNestedLead fs) k = getField fs k := by
  cases hs : getField fs "lead" with
  | none => simp only [enrichNestedLead, hs]
  | some l =>
    simp only [enrichNestedLead, hs]
    by_cases hc : (truthy l && isObjType l) = true
    · rw [if_pos hc]
      exact getField_setField_ne _ _ _ _ (Ne.symm h)
    · rw [if_neg hc]

theorem enrichNestedLead_stable (gs fs : List (String × Json))
    (h : getField gs "lead" = getField (enrichNestedLead fs) "lead") :
    enrichNestedLead gs = gs := by
  cases hs : getField fs "lead" with
  | none =>
    have hid : enrichNestedLead fs = fs := by simp only [enrichNestedLead, hs]
    have h0 : getField gs "lead" = none := by rw [h, hid, hs]
    simp only [enrichNestedLead, h0]
  | some l =>
    by_cases hc : (truthy l && isObjType l) = true
    · have he : enrichNestedLead fs = setField fs "lead" (enrichLeadWithLinks l) := by
        simp only [enrichNestedLead, hs, if_pos hc]
      have h0 : getField gs "lead" = some (enrichLeadWithLinks l) := by
        rw [h, he]
        exact getField_setField_self _ _ _
      have hc2 : (truthy (enrichLeadWithLinks l) && isObjType (enrichLeadWithLinks l)) = true := by
        rw [truthy_eLWL, isObjType_eLWL]
        exact hc
      simp only [enrichNestedLead, h0, if_pos hc2]
      rw [enrichLeadWithLinks_idem]
      exact setField_of_getField _ _ _ h0
    · have he : enrichNestedLead fs = fs := by simp only [enrichNestedLead, hs, if_neg hc]
      have h0 : getField gs "lead" = some l := by rw [h, he, hs]
      simp only [enrichNestedLead, h0, if_neg hc]

theorem enrichNestedLead_idem (fs : List (String × Json)) :
    enrichNestedLead (enrichNestedLead fs) = enrichNestedLead fs :=
  enrichNestedLead_stable (enrichNestedLead fs) fs rfl

theorem enrichNestedLead_of_lead_not_truthy (fs : List (String × Json))
    (h : fieldTruthy fs "lead" = false) : enrichNestedLead fs = fs := by
  unfold fieldTruthy at h
  cases hs : getField fs "lead" with
  | none => simp only [enrichNestedLead, hs]
  | some l =>
    rw [hs] at h
    have h2 : truthy l = false := by simpa using h
    simp only [enrichNestedLead, hs]
    rw [if_neg (by simp [h2])]

theorem fieldTruthy_congr (gs fs : List (String × Json)) (k : String)
    (h : getField gs k = getField fs k) : fieldTruthy gs k = fieldTruthy fs k := by
  unfold fieldTruthy
  rw [h]

theorem enrichDataItem_obj (fs : List (String × Json)) :
    enrichDataItem (Json.obj fs) =
      Json.obj (if fieldTruthy (enrichNestedLead fs) "uuid" &&
                   !fieldTruthy (enrichNestedLead fs) "lead"
                then enrichLeadFields (enrichNestedLead fs)
                else enrichNestedLead fs) := rfl

theorem enrichDataItem_not_obj (x : Json) (h : ∀ fs, x ≠ Json.obj fs) :
    enrichDataItem x = x := by
  cases x with
  | obj fs => exact absurd rfl (h fs)
  | null => rfl
  | bool b => simp [enrichDataItem, truthy, isObjType]
  | num n => simp [enrichDataItem, truthy, isObjType]
  | str s => simp [enrichDataItem, truthy, isObjType]
  | arr items => rfl

theorem enrichDataItem_idem (x : Json) :
    enrichDataItem (enrichDataItem x) = enrichDataItem x := by
  cases x with
  | obj fs =>
    rw [enrichDataItem_obj]
    by_cases hC : (fieldTruthy (enrichNestedLead fs) "uuid" &&
        !fieldTruthy (enrichNestedLead fs) "lead") = true
    · rw [if_pos hC]
      have hparts : fieldTruthy (enrichNestedLead fs) "uuid" = true ∧
          fieldTruthy (enrichNestedLead fs) "lead" = false := by
        constructor
        · exact (Bool.and_eq_true _ _ |>.mp hC).1
        · have := (Bool.and_eq_true _ _ |>.mp hC).2
          simpa using this
      have hlead : getField (enrichLeadFields (enrichNestedLead fs)) "lead" =
          getField (enrichNestedLead fs) "lead" :=
        getField_elf_ne _ _ (by decide) (by decide)
      have heNL : enrichNestedLead (enrichLeadFields (enrichNestedLead fs)) =
          enrichLeadFields (enrichNestedLead fs) := by
        apply enrichNestedLead_of_lead_not_truthy
        rw [fieldTruthy_congr _ _ _ hlead]
        exact hparts.2
      rw [enrichDataItem_obj, heNL]
      have huu : fieldTruthy (enrichLeadFields (enrichNestedLead fs)) "uuid" = true := by
        rw [fieldTruthy_congr _ _ _ (getField_elf_ne _ _ (by decide) (by decide))]
        exact hparts.1
      have hld : fieldTruthy (enrichLeadFields (enrichNestedLead fs)) "lead" = false := by
        rw [fieldTruthy_congr _ _ _ hlead]
        exact hparts.2
      rw [if_pos (by rw [huu, hld]; rfl)]
      rw [enrichLeadFields_idem]
    · rw [if_neg hC]
      rw [enrichDataItem_obj, enrichNestedLead_idem]
      rw [if_neg hC]
  | null => rfl
  | arr items => rfl
  | bool b =>
    have h := enrichDataItem_not_obj (Json.bool b) (by intro fs hh; cases hh)
    rw [h, h]
  | num n =>
    have h := enrichDataItem_not_obj (Json.num n) (by intro fs hh; cases hh)
    rw [h, h]
  | str s =>
    have h := enrichDataItem_not_obj (Json.str s) (by intro fs hh; cases hh)
    rw [h, h]

theorem map_enrichDataItem_idem (l : List Json) :
    (l.map enrichDataItem).map enrichDataItem = l.map enrichDataItem := by
  induction l with
  | nil => rfl
  | cons x xs ih => simp [enrichDataItem_idem x, ih]

theorem getField_eDA_ne (fs : List (String × Json)) (k : String) (h : k ≠ "data") :
    getField (enrichDataArray fs) k = getField fs k := by
  cases hs : getField fs "data" with
  | none => simp only [enrichDataArray, hs]
  | some v =>
    cases v with
    | arr items =>
      simp only [enrichDataArray, hs]
      exact getField_setField_ne _ _ _ _ (Ne.symm h)
    | null => simp only [enrichDataArray, hs]
    | bool b => simp only [enrichDataArray, hs]
    | num n => simp only [enrichDataArray, hs]
    | str s2 => simp only [enrichDataArray, hs]
    | obj gs2 => simp only [enrichDataArray, hs]

theorem enrichDataArray_stable (gs fs : List (String × Json))
    (h : getField gs "data" = getField (enrichDataArray fs) "data") :
    enrichDataArray gs = gs := by
  cases hs : getField fs "data" with
  | none =>
    have hid : enrichDataArray fs = fs := by simp only [enrichDataArray, hs]
    have h0 : getField gs "data" = none := by rw [h, hid, hs]
    simp only [enrichDataArray, h0]
  | some v =>
    cases v with
    | arr items =>
      have he : enrichDataArray fs =
          setField fs "data" (Json.arr (items.map enrichDataItem)) := by
        simp only [enrichDataArray, hs]
      have h0 : getField gs "data" = some (Json.arr (items.map enrichDataItem)) := by
        rw [h, he]
        exact getField_setField_self _ _ _
      simp only [enrichDataArray, h0]
      rw [map_enrichDataItem_idem]
      exact setField_of_getField _ _ _ h0
    | null =>
      have hid : enrichDataArray fs = fs := by simp only [enrichDataArray, hs]
      have h0 : getField gs "data" = some Json.null := by rw [h, hid, hs]
      simp only [enrichDataArray, h0]
    | bool b =>
      have hid : enrichDataArray fs = fs := by simp only [enrichDataArray, hs]
      have h0 : getField gs "data" = some (Json.bool b) := by rw [h, hid, hs]
      simp only [enrichDataArray, h0]
    | num n =>
      have hid : enrichDataArray fs = fs := by simp only [enrichDataArray, hs]
      have h0 : getField gs "data" = some (Json.num n) := by rw [h, hid, hs]
      simp only [enrichDataArray, h0]
    | str s2 =>
      have hid : enrichDataArray fs = fs := by simp only [enrichDataArray, hs]
      have h0 : getField gs "data" = some (Json.str s2) := by rw [h, hid, hs]
      simp only [enrichDataArray, h0]
    | obj gs2 =>
      have hid : enrichDataArray fs = fs := by simp only [enrichDataArray, hs]
      have h0 : getField gs "data" = some (Json.obj gs2) := by rw [h, hid, hs]
      simp only [enrichDataArray, h0]

theorem enrichResult_obj (fs : List (String × Json)) :
    enrichResult (Json.obj fs) =
      Json.obj (if fieldTruthy (enrichDataArray (enrichNestedLead fs)) "uuid" &&
                   fieldTruthy (enrichDataArray (enrichNestedLead fs)) "name"
                then enrichLeadFields (enrichDataArray (enrichNestedLead fs))
                else enrichDataArray (enrichNestedLead fs)) := rfl

theorem enrichResult_not_obj (x : Json) (h : ∀ fs, x ≠ Json.obj fs) :
    enrichResult x = x := by
  cases x with
  | obj fs => exact absurd rfl (h fs)
  | null => rfl
  | bool b => simp [enrichResult, truthy, isObjType]
  | num n => simp [enrichResult, truthy, isObjType]
  | str s => simp [enrichResult, truthy, isObjType]
  | arr items => rfl

theorem enrichResult_idem (x : Json) : enrichResult (enrichResult x) = enrichResult x := by
  cases x with
  | obj fs =>
    rw [enrichResult_obj]
    by_cases hC : (fieldTruthy (enrichDataArray (enrichNestedLead fs)) "uuid" &&
        fieldTruthy (enrichDataArray (enrichNestedLead fs)) "name") = true
    · rw [if_pos hC]
      have hleadread : getField (enrichLeadFields (enrichDataArray (enrichNestedLead fs)))
          "lead" = getField (enrichNestedLead fs) "lead" := by
        rw [getField_elf_ne _ _ (by decide) (by decide),
          getField_eDA_ne _ _ (by decide)]
      have h1 : enrichNestedLead (enrichLeadFields (enrichDataArray (enrichNestedLead fs))) =
          enrichLeadFields (enrichDataArray (enrichNestedLead fs)) :=
        enrichNestedLead_stable _ fs
          (by rw [hleadread])
      have hdataread : getField (enrichLeadFields (enrichDataArray (enrichNestedLead fs)))
          "data" = getField (enrichDataArray (enrichNestedLead fs)) "data" :=
        getField_elf_ne _ _ (by decide) (by decide)
      have h2 : enrichDataArray (enrichLeadFields (enrichDataArray (enrichNestedLead fs))) =
          enrichLeadFields (enrichDataArray (enrichNestedLead fs)) :=
        enrichDataArray_stable _ (enrichNestedLead fs) (by rw [hdataread])
      rw [enrichResult_obj, h1, h2]
      have huu : fieldTruthy (enrichLeadFields (enrichDataArray (enrichNestedLead fs)))
          "uuid" = fieldTruthy (enrichDataArray (enrichNestedLead fs)) "uuid" :=
        fieldTruthy_congr _ _ _ (getField_elf_ne _ _ (by decide) (by decide))
      have hnm : fieldTruthy (enrichLeadFields (enrichDataArray (enrichNestedLead fs)))
          "name" = fieldTruthy (enrichDataArray (enrichNestedLead fs)) "name" :=
        fieldTruthy_congr _ _ _ (getField_elf_ne _ _ (by decide) (by decide))
      rw [if_pos (by rw [huu, hnm]; exact hC)]
      rw [enrichLeadFields_idem]
    · rw [if_neg hC]
      have h1 : enrichNestedLead (enrichDataArray (enrichNestedLead fs)) =
          enrichDataArray (enrichNestedLead fs) :=
        enrichNestedLead_stable _ fs (getField_eDA_ne _ _ (by decide))
      have h2 : enrichDataArray (enrichDataArray (enrichNestedLead fs)) =
          enrichDataArray (enrichNestedLead fs) :=
        enrichDataArray_stable _ (enrichNestedLead fs) rfl
      rw [enrichResult_obj, h1, h2]
      rw [if_neg hC]
  | null => rfl
  | arr items => rfl
  | bool b =>
    have h := enrichResult_not_obj (Json.bool b) (by intro fs hh; cases hh)
    rw [h, h]
  | num n =>
    have h := enrichResult_not_obj (Json.num n) (by intro fs hh; cases hh)
    rw [h, h]
  | str s =>
    have h := enrichResult_not_obj (Json.str s) (by intro fs hh; cases hh)
    rw [h, h]

/-! ## Key-preservation lemmas -/

theorem noKeyFields_getField_none (key : String) (fs : List (String × Json))
    (h : noKeyFields key fs = true) : getField fs key = none := by
  induction fs with
  | nil => rfl
  | cons kv rest ih =>
    obtain ⟨k0, v0⟩ := kv
    simp only [noKeyFields, Bool.and_eq_true, Bool.not_eq_true', beq_eq_false_iff_ne] at h
    obtain ⟨⟨hne, _⟩, hrest⟩ := h
    simp only [getField, if_neg hne]
    exact ih hrest

theorem noKey_of_getField (key : String) (fs : List (String × Json)) (k : String) (v : Json)
    (h : noKeyFields key fs = true) (hk : getField fs k = some v) :
    noKeyAnywhere key v = true := by
  induction fs with
  | nil => simp [getField] at hk
  | cons kv rest ih =>
    obtain ⟨k0, v0⟩ := kv
    simp only [noKeyFields, Bool.and_eq_true, Bool.not_eq_true', beq_eq_false_iff_ne] at h
    obtain ⟨⟨_, hv⟩, hrest⟩ := h
    by_cases hk0 : k0 = k
    · have : v0 = v := by simpa [getField, hk0] using hk
      exact this ▸ hv
    · have : getField rest k = some v := by simpa [getField, hk0] using hk
      exact ih hrest this

theorem noKeyList_mem (key : String) (xs : List Json) (x : Json)
    (h : noKeyList key xs = true) (hx : x ∈ xs) : noKeyAnywhere key x = true := by
  induction xs with
  | nil => cases hx
  | cons y ys ih =>
    simp only [noKeyList, Bool.and_eq_true] at h
    rcases List.mem_cons.mp hx with hh | hh
    · exact hh ▸ h.1
    · exact ih h.2 hh

theorem wfFields_values (fs : List (String × Json)) (k : String) (v : Json)
    (h : wfFields fs = true) (hk : getField fs k = some v) : wfJson v = true := by
  induction fs with
  | nil => simp [getField] at hk
  | cons kv rest ih =>
    obtain ⟨k0, v0⟩ := kv
    simp only [wfFields, Bool.and_eq_true] at h
    obtain ⟨⟨_, hv⟩, hrest⟩ := h
    by_cases hk0 : k0 = k
    · have : v0 = v := by simpa [getField, hk0] using hk
      exact this ▸ hv
    · have : getField rest k = some v := by simpa [getField, hk0] using hk
      exact ih hrest this

theorem wfList_mem (xs : List Json) (x : Json) (h : wfList xs = true) (hx : x ∈ xs) :
    wfJson x = true := by
  induction xs with
  | nil => cases hx
  | cons y ys ih =>
    simp only [wfList, Bool.and_eq_true] at h
    rcases List.mem_cons.mp hx with hh | hh
    · exact hh ▸ h.1
    · exact ih h.2 hh

theorem keysInclFields_pointwise (fs gs : List (String × Json)) (hwf : wfFields fs = true)
    (h : ∀ k v, getField fs k = some v → ∃ w, getField gs k = some w ∧ keysIncl v w = true) :
    keysInclFields gs fs = true := by
  induction fs with
  | nil => simp [keysInclFields]
  | cons kv rest ih =>
    obtain ⟨k0, v0⟩ := kv
    simp only [wfFields, Bool.and_eq_true] at hwf
    obtain ⟨⟨hn, hv0⟩, hrest⟩ := hwf
    have hnone : getField rest k0 = none := Option.isNone_iff_eq_none.mp hn
    obtain ⟨w, hw, hkw⟩ := h k0 v0 (by simp [getField])
    have htail : keysInclFields gs rest = true := by
      apply ih hrest
      intro k v hk
      apply h k v
      have hne : k0 ≠ k := by
        intro he
        rw [he] at hnone
        rw [hnone] at hk
        exact Option.noConfusion hk
      simp only [getField, if_neg hne]
      exact hk
    simp [keysInclFields, hw, hkw, htail]

mutual
theorem keysIncl_refl : ∀ (x : Json), wfJson x = true → keysIncl x x = true
  | .null, _ => by decide
  | .bool b, _ => by simp [keysIncl]
  | .num n, _ => by simp [keysIncl]
  | .str s, _ => by simp [keysIncl]
  | .arr xs, h => by
      have hw : wfList xs = true := by simpa [wfJson] using h
      simpa [keysIncl] using keysInclList_refl xs hw
  | .obj fs, h => by
      have hw : wfFields fs = true := by simpa [wfJson] using h
      simpa [keysIncl] using keysInclFields_reflAux fs fs hw (fun _ _ hk => hk)

theorem keysInclList_refl : ∀ (xs : List Json), wfList xs = true → keysInclList xs xs = true
  | [], _ => by decide
  | x :: xs, h => by
      have h1 : wfJson x = true ∧ wfList xs = true := by
        simpa [wfList, Bool.and_eq_true] using h
      simp [keysInclList, keysIncl_refl x h1.1, keysInclList_refl xs h1.2]

theorem keysInclFields_reflAux : ∀ (fs gs : List (String × Json)), wfFields fs = true →
    (∀ k v, getField fs k = some v → getField gs k = some v) → keysInclFields gs fs = true
  | [], _, _, _ => by simp [keysInclFields]
  | (k0, v0) :: fs, gs, h, hsub => by
      have h1 : (getField fs k0 = none ∧ wfJson v0 = true) ∧ wfFields fs = true := by
        simpa [wfFields, Bool.and_eq_true] using h
      have hnone : getField fs k0 = none := h1.1.1
      have hg : getField gs k0 = some v0 := hsub k0 v0 (by simp [getField])
      have hvv : keysIncl v0 v0 = true := keysIncl_refl v0 h1.1.2
      have hrest : keysInclFields gs fs = true := by
        apply keysInclFields_reflAux fs gs h1.2
        intro k v hk
        apply hsub k v
        have hne : k0 ≠ k := by
          intro he
          rw [he] at hnone
          rw [hnone] at hk
          exact Option.noConfusion hk
        simp only [getField, if_neg hne]
        exact hk
      simp [keysInclFields, hg, hvv, hrest]
end

theorem getField_elf_of_some (fs : List (String × Json)) (k : String) (v : Json)
    (hg : getField fs "_grinfi_contact_url" = none) (hl : getField fs "_linkedin_url" = none)
    (hk : getField fs k = some v) : getField (enrichLeadFields fs) k = some v := by
  by_cases h1 : k = "_grinfi_contact_url"
  · rw [h1, hg] at hk
    exact Option.noConfusion hk
  · by_cases h2 : k = "_linkedin_url"
    · rw [h2, hl] at hk
      exact Option.noConfusion hk
    · rw [getField_elf_ne _ _ h1 h2]
      exact hk

theorem keysIncl_eLWL (l : Json) (hwf : wfJson l = true)
    (hg : noKeyAnywhere "_grinfi_contact_url" l = true)
    (hl : noKeyAnywhere "_linkedin_url" l = true) :
    keysIncl l (enrichLeadWithLinks l) = true := by
  cases l with
  | obj lfs =>
    have hwff : wfFields lfs = true := by simpa [wfJson] using hwf
    have hgf : noKeyFields "_grinfi_contact_url" lfs = true := by simpa [noKeyAnywhere] using hg
    have hlf : noKeyFields "_linkedin_url" lfs = true := by simpa [noKeyAnywhere] using hl
    have hgn := noKeyFields_getField_none _ _ hgf
    have hln := noKeyFields_getField_none _ _ hlf
    show keysIncl (Json.obj lfs) (Json.obj (enrichLeadFields lfs)) = true
    simp only [keysIncl]
    apply keysInclFields_pointwise _ _ hwff
    intro k v hk
    exact ⟨v, getField_elf_of_some lfs k v hgn hln hk,
      keysIncl_refl v (wfFields_values lfs k v hwff hk)⟩
  | null => decide
  | bool b => simp [keysIncl, enrichLeadWithLinks]
  | num n => simp [keysIncl, enrichLeadWithLinks]
  | str s => simp [keysIncl, enrichLeadWithLinks]
  | arr xs => exact keysIncl_refl _ hwf

theorem getField_eNL_lead_pos (fs : List (String × Json)) (l : Json)
    (h : getField fs "lead" = some l) (hc : (truthy l && isObjType l) = true) :
    getField (enrichNestedLead fs) "lead" = some (enrichLeadWithLinks l) := by
  simp only [enrichNestedLead, h, if_pos hc]
  exact getField_setField_self _ _ _

theorem enrichNestedLead_neg (fs : List (String × Json)) (l : Json)
    (h : getField fs "lead" = some l) (hc : ¬(truthy l && isObjType l) = true) :
    enrichNestedLead fs = fs := by
  simp only [enrichNestedLead, h, if_neg hc]

theorem enrichDataArray_arr (fs : List (String × Json)) (items : List Json)
    (h : getField fs "data" = some (Json.arr items)) :
    getField (enrichDataArray fs) "data" = some (Json.arr (items.map enrichDataItem)) := by
  simp only [enrichDataArray, h]
  exact getField_setField_self _ _ _

theorem enrichDataArray_id_of_not_arr (fs : List (String × Json)) (v : Json)
    (h : getField fs "data" = some v) (hv : ∀ items, v ≠ Json.arr items) :
    enrichDataArray fs = fs := by
  cases v with
  | arr items => exact absurd rfl (hv items)
  | null => simp only [enrichDataArray, h]
  | bool b => simp only [enrichDataArray, h]
  | num n => simp only [enrichDataArray, h]
  | str s => simp only [enrichDataArray, h]
  | obj gs => simp only [enrichDataArray, h]

/-- The `eNL` stage only rewrites the `lead` field, and rewrites it to an
enrichment-included value. -/
theorem eNL_pointwise (fs : List (String × Json)) (hwff : wfFields fs = true)
    (hgf : noKeyFields "_grinfi_contact_url" fs = true)
    (hlf : noKeyFields "_linkedin_url" fs = true) :
    ∀ k v, getField fs k = some v →
      ∃ w, getField (enrichNestedLead fs) k = some w ∧ keysIncl v w = true := by
  intro k v hk
  by_cases hk1 : k = "lead"
  · subst hk1
    by_cases hc : (truthy v && isObjType v) = true
    · exact ⟨enrichLeadWithLinks v, getField_eNL_lead_pos fs v hk hc,
        keysIncl_eLWL v (wfFields_values _ _ _ hwff hk)
          (noKey_of_getField _ _ _ _ hgf hk) (noKey_of_getField _ _ _ _ hlf hk)⟩
    · refine ⟨v, ?_, keysIncl_refl v (wfFields_values _ _ _ hwff hk)⟩
      rw [enrichNestedLead_neg fs v hk hc]
      exact hk
  · exact ⟨v, by rw [getField_eNL_ne _ _ hk1]; exact hk,
      keysIncl_refl v (wfFields_values _ _ _ hwff hk)⟩

theorem keysIncl_eDI (x : Json) (hwf : wfJson x = true)
    (hg : noKeyAnywhere "_grinfi_contact_url" x = true)
    (hl : noKeyAnywhere "_linkedin_url" x = true) :
    keysIncl x (enrichDataItem x) = true := by
  cases x with
  | obj gs =>
    have hwff : wfFields gs = true := by simpa [wfJson] using hwf
    have hgf : noKeyFields "_grinfi_contact_url" gs = true := by simpa [noKeyAnywhere] using hg
    have hlf : noKeyFields "_linkedin_url" gs = true := by simpa [noKeyAnywhere] using hl
    have hgn := noKeyFields_getField_none _ _ hgf
    have hln := noKeyFields_getField_none _ _ hlf
    have hgn1 : getField (enrichNestedLead gs) "_grinfi_contact_url" = none := by
      rw [getField_eNL_ne _ _ (by decide)]
      exact hgn
    have hln1 : getField (enrichNestedLead gs) "_linkedin_url" = none := by
      rw [getField_eNL_ne _ _ (by decide)]
      exact hln
    rw [enrichDataItem_obj]
    simp only [keysIncl]
    apply keysInclFields_pointwise _ _ hwff
    intro k v hk
    obtain ⟨w, hw, hkw⟩ := eNL_pointwise gs hwff hgf hlf k v hk
    by_cases hC : (fieldTruthy (enrichNestedLead gs) "uuid" &&
        !fieldTruthy (enrichNestedLead gs) "lead") = true
    · rw [if_pos hC]
      exact ⟨w, getField_elf_of_some _ _ _ hgn1 hln1 hw, hkw⟩
    · rw [if_neg hC]
      exact ⟨w, hw, hkw⟩
  | null => decide
  | bool b => simp [keysIncl, enrichDataItem_not_obj (Json.bool b) (by intro fs hh; cases hh)]
  | num n => simp [keysIncl, enrichDataItem_not_obj (Json.num n) (by intro fs hh; cases hh)]
  | str s => simp [keysIncl, enrichDataItem_not_obj (Json.str s) (by intro fs hh; cases hh)]
  | arr xs => exact keysIncl_refl _ hwf

theorem keysInclList_map_eDI (items : List Json) (hw : wfList items = true)
    (hg : noKeyList "_grinfi_contact_url" items = true)
    (hl : noKeyList "_linkedin_url" items = true) :
    keysInclList items (items.map enrichDataItem) = true := by
  induction items with
  | nil => decide
  | cons x xs ih =>
    simp only [wfList, Bool.and_eq_true] at hw
    simp only [noKeyList, Bool.and_eq_true] at hg hl
    simp only [List.map_cons, keysInclList, Bool.and_eq_true]
    exact ⟨keysIncl_eDI x hw.1 hg.1 hl.1, ih hw.2 hg.2 hl.2⟩

theorem keysIncl_enrichResult (x : Json) (hwf : wfJson x = true)
    (hg : noKeyAnywhere "_grinfi_contact_url" x = true)
    (hl : noKeyAnywhere "_linkedin_url" x = true) :
    keysIncl x (enrichResult x) = true := by
  cases x with
  | obj fs =>
    have hwff : wfFields fs = true := by simpa [wfJson] using hwf
    have hgf : noKeyFields "_grinfi_contact_url" fs = true := by simpa [noKeyAnywhere] using hg
    have hlf : noKeyFields "_linkedin_url" fs = true := by simpa [noKeyAnywhere] using hl
    have hgn := noKeyFields_getField_none _ _ hgf
    have hln := noKeyFields_getField_none _ _ hlf
    have hstage12 : ∀ k v, getField fs k = some v →
        ∃ w, getField (enrichDataArray (enrichNestedLead fs)) k = some w ∧
          keysIncl v w = true := by
      intro k v hk
      by_cases hk2 : k = "data"
      · subst hk2
        have h1 : getField (enrichNestedLead fs) "data" = getField fs "data" :=
          getField_eNL_ne _ _ (by decide)
        cases v with
        | arr items =>
          refine ⟨Json.arr (items.map enrichDataItem),
            enrichDataArray_arr _ items (by rw [h1]; exact hk), ?_⟩
          have hwv : wfList items = true := by
            simpa [wfJson] using wfFields_values _ _ _ hwff hk
          have hgv : noKeyList "_grinfi_contact_url" items = true := by
            simpa [noKeyAnywhere] using noKey_of_getField _ _ _ _ hgf hk
          have hlv : noKeyList "_linkedin_url" items = true := by
            simpa [noKeyAnywhere] using noKey_of_getField _ _ _ _ hlf hk
          simpa [keysIncl] using keysInclList_map_eDI items hwv hgv hlv
        | null =>
          refine ⟨Json.null, ?_, by decide⟩
          rw [enrichDataArray_id_of_not_arr _ _ (by rw [h1]; exact hk)
            (by intro items hh; cases hh), h1]
          exact hk
        | bool b =>
          refine ⟨Json.bool b, ?_, by simp [keysIncl]⟩
          rw [enrichDataArray_id_of_not_arr _ _ (by rw [h1]; exact hk)
            (by intro items hh; cases hh), h1]
          exact hk
        | num n =>
          refine ⟨Json.num n, ?_, by simp [keysIncl]⟩
          rw [enrichDataArray_id_of_not_arr _ _ (by rw [h1]; exact hk)
            (by intro items hh; cases hh), h1]
          exact hk
        | str s =>
          refine ⟨Json.str s, ?_, by simp [keysIncl]⟩
          rw [enrichDataArray_id_of_not_arr _ _ (by rw [h1]; exact hk)
            (by intro items hh; cases hh), h1]
          exact hk
        | obj gs2 =>
          refine ⟨Json.obj gs2, ?_, keysIncl_refl _ (wfFields_values _ _ _ hwff hk)⟩
          rw [enrichDataArray_id_of_not_arr _ _ (by rw [h1]; exact hk)
            (by intro items hh; cases hh), h1]
          exact hk
      · obtain ⟨w, hw, hkw⟩ := eNL_pointwise fs hwff hgf hlf k v hk
        exact ⟨w, by rw [getField_eDA_ne _ _ hk2]; exact hw, hkw⟩
    have hgn2 : getField (enrichDataArray (enrichNestedLead fs)) "_grinfi_contact_url" = none := by
      rw [getField_eDA_ne _ _ (by decide), getField_eNL_ne _ _ (by decide)]
      exact hgn
    have hln2 : getField (enrichDataArray (enrichNestedLead fs)) "_linkedin_url" = none := by
      rw [getField_eDA_ne _ _ (by decide), getField_eNL_ne _ _ (by decide)]
      exact hln
    rw [enrichResult_obj]
    simp only [keysIncl]
    apply keysInclFields_pointwise _ _ hwff
    intro k v hk
    obtain ⟨w, hw, hkw⟩ := hstage12 k v hk
    by_cases hC : (fieldTruthy (enrichDataArray (enrichNestedLead fs)) "uuid" &&
        fieldTruthy (enrichDataArray (enrichNestedLead fs)) "name") = true
    · rw [if_pos hC]
      exact ⟨w, getField_elf_of_some _ _ _ hgn2 hln2 hw, hkw⟩
    · rw [if_neg hC]
      exact ⟨w, hw, hkw⟩
  | null => decide
  | bool b => simp [keysIncl, enrichResult_not_obj (Json.bool b) (by intro fs hh; cases hh)]
  | num n => simp [keysIncl, enrichResult_not_obj (Json.num n) (by intro fs hh; cases hh)]
  | str s => simp [keysIncl, enrichResult_not_obj (Json.str s) (by intro fs hh; cases hh)]
  | arr xs => exact keysIncl_refl _ hwf

/-! ## Enrichment identity on values without the trigger fields -/

theorem map_id_of_eq (l : List Json) (f : Json → Json) (h : ∀ x ∈ l, f x = x) :
    l.map f = l := by
  induction l with
  | nil => rfl
  | cons x xs ih =>
    rw [List.map_cons, h x (List.mem_cons_self _ _),
      ih (fun y hy => h y (List.mem_cons_of_mem _ hy))]

theorem setUrlField_id_of_none (fs : List (String × Json)) (sk dk : String) (mk : Json → String)
    (h : getField fs sk = none) : setUrlField fs sk dk mk = fs := by
  simp only [setUrlField, h]

theorem enrichLeadWithLinks_id (l : Json) (hu : noKeyAnywhere "uuid" l = true)
    (hl : noKeyAnywhere "linkedin" l = true) : enrichLeadWithLinks l = l := by
  cases l with
  | obj lfs =>
    have hun : getField lfs "uuid" = none :=
      noKeyFields_getField_none _ _ (by simpa [noKeyAnywhere] using hu)
    have hln : getField lfs "linkedin" = none :=
      noKeyFields_getField_none _ _ (by simpa [noKeyAnywhere] using hl)
    show Json.obj (enrichLeadFields lfs) = Json.obj lfs
    unfold enrichLeadFields
    rw [setUrlField_id_of_none _ _ _ _ hun, setUrlField_id_of_none _ _ _ _ hln]
  | null => rfl
  | bool b => rfl
  | num n => rfl
  | str s => rfl
  | arr xs => rfl

theorem enrichNestedLead_id (fs : List (String × Json))
    (hu : noKeyFields "uuid" fs = true) (hl : noKeyFields "linkedin" fs = true) :
    enrichNestedLead fs = fs := by
  cases hs : getField fs "lead" with
  | none => simp only [enrichNestedLead, hs]
  | some l =>
    have hidl : enrichLeadWithLinks l = l :=
      enrichLeadWithLinks_id l (noKey_of_getField _ _ _ _ hu hs)
        (noKey_of_getField _ _ _ _ hl hs)
    by_cases hc : (truthy l && isObjType l) = true
    · simp only [enrichNestedLead, hs, if_pos hc, hidl]
      exact setField_of_getField _ _ _ hs
    · simp only [enrichNestedLead, hs, if_neg hc]

theorem enrichDataItem_id (x : Json) (hu : noKeyAnywhere "uuid" x = true)
    (hl : noKeyAnywhere "linkedin" x = true) : enrichDataItem x = x := by
  cases x with
  | obj gs =>
    have huf : noKeyFields "uuid" gs = true := by simpa [noKeyAnywhere] using hu
    have hlf : noKeyFields "linkedin" gs = true := by simpa [noKeyAnywhere] using hl
    rw [enrichDataItem_obj, enrichNestedLead_id gs huf hlf]
    have hft : fieldTruthy gs "uuid" = false := by
      unfold fieldTruthy
      rw [noKeyFields_getField_none _ _ huf]
    rw [if_neg (by rw [hft]; simp)]
  | null => rfl
  | bool b => exact enrichDataItem_not_obj (Json.bool b) (by intro fs hh; cases hh)
  | num n => exact enrichDataItem_not_obj (Json.num n) (by intro fs hh; cases hh)
  | str s => exact enrichDataItem_not_obj (Json.str s) (by intro fs hh; cases hh)
  | arr xs => rfl

theorem enrichDataArray_id (fs : List (String × Json))
    (hu : noKeyFields "uuid" fs = true) (hl : noKeyFields "linkedin" fs = true) :
    enrichDataArray fs = fs := by
  cases hs : getField fs "data" with
  | none => simp only [enrichDataArray, hs]
  | some v =>
    cases v with
    | arr items =>
      have hmap : items.map enrichDataItem = items := by
        apply map_id_of_eq
        intro y hy
        have hus : noKeyList "uuid" items = true := by
          simpa [noKeyAnywhere] using noKey_of_getField _ _ _ _ hu hs
        have hls : noKeyList "linkedin" items = true := by
          simpa [noKeyAnywhere] using noKey_of_getField _ _ _ _ hl hs
        exact enrichDataItem_id y (noKeyList_mem _ _ _ hus hy) (noKeyList_mem _ _ _ hls hy)
      simp only [enrichDataArray, hs, hmap]
      exact setField_of_getField _ _ _ hs
    | null => simp only [enrichDataArray, hs]
    | bool b => simp only [enrichDataArray, hs]
    | num n => simp only [enrichDataArray, hs]
    | str s => simp only [enrichDataArray, hs]
    | obj gs2 => simp only [enrichDataArray, hs]

theorem enrichResult_id (x : Json) (hu : noKeyAnywhere "uuid" x = true)
    (hl : noKeyAnywhere "linkedin" x = true) : enrichResult x = x := by
  cases x with
  | obj fs =>
    have huf : noKeyFields "uuid" fs = true := by simpa [noKeyAnywhere] using hu
    have hlf : noKeyFields "linkedin" fs = true := by simpa [noKeyAnywhere] using hl
    rw [enrichResult_obj, enrichNestedLead_id fs huf hlf, enrichDataArray_id fs huf hlf]
    have hft : fieldTruthy fs "uuid" = false := by
      unfold fieldTruthy
      rw [noKeyFields_getField_none _ _ huf]
    rw [if_neg (by rw [hft]; simp)]
  | null => rfl
  | bool b => exact enrichResult_not_obj (Json.bool b) (by intro fs hh; cases hh)
  | num n => exact enrichResult_not_obj (Json.num n) (by intro fs hh; cases hh)
  | str s => exact enrichResult_not_obj (Json.str s) (by intro fs hh; cases hh)
  | arr xs => rfl

/-! ## C5: enricher on a lead wrapper, and the no-uuid clause -/

/-- The spec's example input `{lead: {uuid: "u1", linkedin: "jdoe"}}`. -/
def exLead : Json :=
  Json.obj [("lead", Json.obj [("uuid", Json.str "u1"), ("linkedin", Json.str "jdoe")])]

/-- A value that contains no `uuid` field anywhere but carries a
`lead.linkedin` field. -/
def exNoUuid : Json := Json.obj [("lead", Json.obj [("linkedin", Json.str "jdoe")])]

/-- C5 counterexample: `exNoUuid` contains no `uuid` field anywhere, yet
`enrichResult` does not return it unchanged — the `linkedin` field of the
nested `lead` alone triggers the addition of `_linkedin_url`. -/
theorem enrichResult_no_uuid_counterexample :
    noKeyAnywhere "uuid" exNoUuid = true ∧
    enrichResult exNoUuid ≠ exNoUuid ∧
    enrichResult exNoUuid =
      Json.obj [("lead", Json.obj [("linkedin", Json.str "jdoe"),
        ("_linkedin_url", Json.str "https://www.linkedin.com/in/jdoe")])] := by
  refine ⟨by decide, by decide, by decide⟩

/-- C5 (amended): enriching `{lead: {uuid: "u1", linkedin: "jdoe"}}` adds
`_grinfi_contact_url` ending in `/crm/contacts/u1` and `_linkedin_url`
ending in `/in/jdoe` to the nested lead; and every JSON value that contains
no `uuid` field and also no `linkedin` field anywhere is returned unchanged
(the original claim required only the absence of `uuid`, which the
counterexample refutes). -/
theorem enrichResult_lead_and_untouched (x : Json) :
    enrichResult exLead =
      Json.obj [("lead", Json.obj [("uuid", Json.str "u1"), ("linkedin", Json.str "jdoe"),
        ("_grinfi_contact_url", Json.str "https://leadgen.grinfi.io/crm/contacts/u1"),
        ("_linkedin_url", Json.str "https://www.linkedin.com/in/jdoe")])] ∧
    (noKeyAnywhere "uuid" x = true → noKeyAnywhere "linkedin" x = true →
      enrichResult x = x) := by
  refine ⟨by decide, fun hu hl => enrichResult_id x hu hl⟩

/-- C5 witness: a plain list-shaped value with neither `uuid` nor `linkedin`
fields passes through `enrichResult` unchanged. -/
theorem enrichResult_lead_and_untouched_witness :
    enrichResult (Json.obj [("total", Json.num 5), ("data", Json.arr [Json.str "a"])]) =
      Json.obj [("total", Json.num 5), ("data", Json.arr [Json.str "a"])] :=
  (enrichResult_lead_and_untouched
    (Json.obj [("total", Json.num 5), ("data", Json.arr [Json.str "a"])])).2
    (by decide) (by decide)

/-! ## C6: idempotence and additivity of enrichment -/

/-- Path read through nested objects (`x.k1.k2...`). -/
def getPath : Json → List String → Option Json
  | j, [] => some j
  | Json.obj fs, k :: ks =>
    (match getField fs k with
     | some v => getPath v ks
     | none => none)
  | _, _ :: _ => none

/-- A lead whose `_grinfi_contact_url` field already exists with an object
value: enrichment overwrites it. -/
def exOverwrite : Json :=
  Json.obj [("lead", Json.obj [("uuid", Json.str "u"),
    ("_grinfi_contact_url", Json.obj [("inner", Json.null)])])]

/-- C6 counterexample: on `exOverwrite` (a well-formed decoded JSON value)
enrichment replaces the pre-existing object value of
`lead._grinfi_contact_url` with a string, so the input's nested field
`lead._grinfi_contact_url.inner` no longer exists in the output — enrichment
is not purely additive as stated. -/
theorem enrich_additive_counterexample :
    wfJson exOverwrite = true ∧
    getPath exOverwrite ["lead", "_grinfi_contact_url", "inner"] = some Json.null ∧
    getPath (enrichResult exOverwrite) ["lead", "_grinfi_contact_url", "inner"] = none ∧
    keysIncl exOverwrite (enrichResult exOverwrite) = false := by
  refine ⟨by decide, by decide, by decide, by decide⟩

/-- C6 (amended): `enrichResult` is idempotent on every JSON value; and on
every decoded JSON value (distinct keys within each object) that does not
already contain a `_grinfi_contact_url` or `_linkedin_url` field, the
enriched value contains every field of the input under its original name —
under that restriction enrichment never removes or renames an existing
field.  The restriction is forced by the counterexample, where a
pre-existing derived field's value is overwritten. -/
theorem enrich_idempotent_additive (x : Json) :
    enrichResult (enrichResult x) = enrichResult x ∧
    (wfJson x = true → noKeyAnywhere "_grinfi_contact_url" x = true →
      noKeyAnywhere "_linkedin_url" x = true →
      keysIncl x (enrichResult x) = true) :=
  ⟨enrichResult_idem x, fun hwf hg hl => keysIncl_enrichResult x hwf hg hl⟩

/-- C6 witness: idempotence and field preservation evaluated on the spec's
lead-wrapper example. -/
theorem enrich_idempotent_additive_witness :
    enrichResult (enrichResult exLead) = enrichResult exLead ∧
    keysIncl exLead (enrichResult exLead) = true :=
  ⟨(enrich_idempotent_additive exLead).1,
    (enrich_idempotent_additive exLead).2 (by decide) (by decide) (by decide)⟩

/-! ## Aggregator lemmas -/

/-- First-occurrence deduplication, the order a JS `Map` built by
insert-if-absent iterates its keys in. -/
def firstDedup : List String → List String
  | [] => []
  | x :: xs => x :: (firstDedup xs).filter (fun y => y ≠ x)

theorem filter_swap (p q : String → Bool) (l : List String) :
    (l.filter p).filter q = (l.filter q).filter p := by
  induction l with
  | nil => rfl
  | cons x xs ih =>
    by_cases hp : p x = true <;> by_cases hq : q x = true <;>
      simp [List.filter_cons, hp, hq, ih]

theorem firstDedup_filter (p : String → Bool) (l : List String) :
    firstDedup (l.filter p) = (firstDedup l).filter p := by
  induction l with
  | nil => rfl
  | cons x xs ih =>
    by_cases hp : p x = true
    · have h1 : (x :: xs).filter p = x :: xs.filter p := by
        rw [List.filter_cons, if_pos hp]
      rw [h1]
      simp only [firstDedup]
      rw [ih, filter_swap, List.filter_cons, if_pos hp]
    · have hp' : p x = false := by simpa using hp
      have h1 : (x :: xs).filter p = xs.filter p := by
        rw [List.filter_cons, hp']
        simp
      have h2 : (firstDedup (x :: xs)).filter p =
          ((firstDedup xs).filter (fun y => y ≠ x)).filter p := by
        show (x :: (firstDedup xs).filter (fun y => y ≠ x)).filter p = _
        rw [List.filter_cons, hp']
        simp
      have hvac : ((firstDedup xs).filter p).filter (fun y => y ≠ x) =
          (firstDedup xs).filter p := by
        apply List.filter_eq_self.mpr
        intro a ha
        have hpa : p a = true := (List.mem_filter.mp ha).2
        have hax : a ≠ x := by
          intro he
          rw [he] at hpa
          rw [hpa] at hp
          exact hp rfl
        simpa using hax
      rw [h1, ih, h2, filter_swap, hvac]

theorem firstDedup_nodup (l : List String) : (firstDedup l).Nodup := by
  induction l with
  | nil => exact List.nodup_nil
  | cons x xs ih =>
    refine List.nodup_cons.mpr ⟨?_, List.Nodup.filter _ ih⟩
    intro hmem
    have := (List.mem_filter.mp hmem).2
    simp at this

theorem lookupA_append_single {α : Type} (acc : List (String × α)) (k u : String) (v : α) :
    lookupA (acc ++ [(k, v)]) u =
      match lookupA acc u with
      | some w => some w
      | none => if k = u then some v else none := by
  induction acc with
  | nil => simp [lookupA]
  | cons kv rest ih =>
    obtain ⟨k0, v0⟩ := kv
    by_cases h : k0 = u
    · simp [lookupA, h]
    · simp only [List.cons_append, lookupA, if_neg h]
      exact ih

theorem llmAux_keys (msgs : List InboxMsg) (acc : List (String × InboxMsg)) :
    (llmAux acc msgs).map Prod.fst =
      acc.map Prod.fst ++
        firstDedup ((msgs.map InboxMsg.lead_uuid).filter
          (fun u => (lookupA acc u).isNone)) := by
  induction msgs generalizing acc with
  | nil => simp [llmAux, firstDedup]
  | cons msg rest ih =>
    by_cases hg : (lookupA acc msg.lead_uuid).isSome = true
    · simp only [llmAux, if_pos hg]
      rw [ih acc]
      have hdrop : (lookupA acc msg.lead_uuid).isNone = false := by
        rcases hx : lookupA acc msg.lead_uuid with _ | w
        · rw [hx] at hg
          simp at hg
        · rfl
      simp [List.filter_cons, hdrop]
    · have hnone : lookupA acc msg.lead_uuid = none := by
        rcases hx : lookupA acc msg.lead_uuid with _ | w
        · rfl
        · rw [hx] at hg
          simp at hg
      simp only [llmAux, if_neg hg]
      rw [ih (acc ++ [(msg.lead_uuid, msg)])]
      have hpred : ∀ u, (lookupA (acc ++ [(msg.lead_uuid, msg)]) u).isNone =
          ((lookupA acc u).isNone && (u ≠ msg.lead_uuid)) := by
        intro u
        rw [lookupA_append_single]
        rcases hx : lookupA acc u with _ | w
        · by_cases he : msg.lead_uuid = u
          · simp [he]
          · simp [he, Ne.symm he]
        · simp
      have hfilter : (rest.map InboxMsg.lead_uuid).filter
            (fun u => (lookupA (acc ++ [(msg.lead_uuid, msg)]) u).isNone) =
          ((rest.map InboxMsg.lead_uuid).filter (fun u => (lookupA acc u).isNone)).filter
            (fun u => u ≠ msg.lead_uuid) := by
        rw [List.filter_filter]
        apply List.filter_congr
        intro u _
        rw [hpred u]
        rw [Bool.and_comm]
      rw [hfilter, firstDedup_filter]
      have hkeep : (lookupA acc msg.lead_uuid).isNone = true := by rw [hnone]; rfl
      simp [List.filter_cons, hkeep, firstDedup]

theorem llmAux_values (msgs : List InboxMsg) (acc : List (String × InboxMsg))
    (u : String) (m : InboxMsg) (h : (u, m) ∈ llmAux acc msgs) :
    (u, m) ∈ acc ∨
      (lookupA acc u = none ∧
        msgs.find? (fun msg => msg.lead_uuid == u) = some m ∧ m.lead_uuid = u) := by
  induction msgs generalizing acc with
  | nil =>
    simp [llmAux] at h
    exact Or.inl h
  | cons msg rest ih =>
    by_cases hg : (lookupA acc msg.lead_uuid).isSome = true
    · simp only [llmAux, if_pos hg] at h
      rcases ih acc h with h1 | ⟨h1, h2, h3⟩
      · exact Or.inl h1
      · have hne : msg.lead_uuid ≠ u := by
          intro he
          rw [he] at hg
          rw [h1] at hg
          simp at hg
        refine Or.inr ⟨h1, ?_, h3⟩
        rw [List.find?_cons_of_neg]
        · exact h2
        · simp [hne]
    · have hnone : lookupA acc msg.lead_uuid = none := by
        rcases hx : lookupA acc msg.lead_uuid with _ | w
        · rfl
        · rw [hx] at hg
          simp at hg
      simp only [llmAux, if_neg hg] at h
      rcases ih (acc ++ [(msg.lead_uuid, msg)]) h with h1 | ⟨h1, h2, h3⟩
      · rcases List.mem_append.mp h1 with h2 | h2
        · exact Or.inl h2
        · have hpair : u = msg.lead_uuid ∧ m = msg := by simpa using h2
          refine Or.inr ⟨hpair.1 ▸ hnone, ?_, by rw [hpair.1, hpair.2]⟩
          rw [List.find?_cons_of_pos]
          · rw [hpair.2]
          · simp [hpair.1]
      · have hne : u ≠ msg.lead_uuid := by
          intro he
          rw [lookupA_append_single] at h1
          rcases hx : lookupA acc u with _ | w
          · rw [hx] at h1
            simp [he] at h1
          · rw [hx] at h1
            simp at h1
        have hacc : lookupA acc u = none := by
          rw [lookupA_append_single] at h1
          rcases hx : lookupA acc u with _ | w
          · rfl
          · rw [hx] at h1
            simp at h1
        refine Or.inr ⟨hacc, ?_, h3⟩
        rw [List.find?_cons_of_neg]
        · exact h2
        · simp
          intro he
          exact absurd he.symm hne

theorem leadLatestMessage_keys (msgs : List InboxMsg) :
    (leadLatestMessage msgs).map Prod.fst = firstDedup (msgs.map InboxMsg.lead_uuid) := by
  unfold leadLatestMessage
  rw [llmAux_keys msgs []]
  simp [lookupA]

theorem leadLatestMessage_values (msgs : List InboxMsg) (u : String) (m : InboxMsg)
    (h : (u, m) ∈ leadLatestMessage msgs) :
    msgs.find? (fun msg => msg.lead_uuid == u) = some m ∧ m.lead_uuid = u := by
  rcases llmAux_values msgs [] u m h with h1 | ⟨_, h2, h3⟩
  · cases h1
  · exact ⟨h2, h3⟩

theorem buildConv_inv (f : String → Except Unit LeadResp) (u : String) (m : InboxMsg)
    (c : UnreadConv) (h : buildConv f u m = some c) :
    ∃ ld, f u = Except.ok ld ∧
      c.contact_uuid = u ∧
      c.unread_counts = (ld.lead.bind LeadInfo.unread_counts).getD [] ∧
      (∃ uc ∈ c.unread_counts, 0 < uc.count) ∧
      c.latest_message = m.text ∧ c.latest_message_at = m.created_at ∧
      c.sender_profile_uuid = m.sender_profile_uuid ∧
      c.conversation_uuid = m.linkedin_conversation_uuid := by
  cases hf : f u with
  | error e =>
    simp only [buildConv, hf] at h
    exact Option.noConfusion h
  | ok ld =>
    simp only [buildConv, hf] at h
    by_cases hc : (decide (0 < ((ld.lead.bind LeadInfo.unread_counts).getD []).length) &&
        ((ld.lead.bind LeadInfo.unread_counts).getD []).any
          (fun uc => decide (0 < uc.count))) = true
    · rw [if_pos hc] at h
      injection h with h
      subst h
      refine ⟨ld, rfl, rfl, rfl, ?_, rfl, rfl, rfl, rfl⟩
      have hany := (Bool.and_eq_true _ _ |>.mp hc).2
      obtain ⟨uc, hmem, hcnt⟩ := List.any_eq_true.mp hany
      exact ⟨uc, hmem, by simpa using hcnt⟩
    · rw [if_neg hc] at h
      exact Option.noConfusion h

theorem buildConv_uuid (f : String → Except Unit LeadResp) (u : String) (m : InboxMsg)
    (c : UnreadConv) (h : buildConv f u m = some c) : c.contact_uuid = u := by
  obtain ⟨ld, _, hu, _⟩ := buildConv_inv f u m c h
  exact hu

theorem nodup_filterMap_uuids (f : String → Except Unit LeadResp)
    (pairs : List (String × InboxMsg)) (hnd : (pairs.map Prod.fst).Nodup) :
    ((pairs.filterMap (fun p => buildConv f p.1 p.2)).map UnreadConv.contact_uuid).Nodup := by
  induction pairs with
  | nil => exact List.nodup_nil
  | cons p ps ih =>
    simp only [List.map_cons, List.nodup_cons] at hnd
    cases hb : buildConv f p.1 p.2 with
    | none =>
      simp only [List.filterMap_cons, hb]
      exact ih hnd.2
    | some c =>
      simp only [List.filterMap_cons, hb, List.map_cons, List.nodup_cons]
      refine ⟨?_, ih hnd.2⟩
      intro hmem
      obtain ⟨c2, hc2, hc2u⟩ := List.mem_map.mp hmem
      obtain ⟨q, hq, hbq⟩ := List.mem_filterMap.mp hc2
      have h1 : c2.contact_uuid = q.1 := buildConv_uuid f q.1 q.2 c2 hbq
      have h2 : c.contact_uuid = p.1 := buildConv_uuid f p.1 p.2 c hb
      apply hnd.1
      rw [← h2, ← hc2u, h1]
      exact List.mem_map.mpr ⟨q, hq, rfl⟩

/-- The spec's two-contact scenario: contact A has a positive unread count
and contact B an all-zero one (fields: name, then unread_counts with count,
channel, sender_profile_uuid). -/
def fAB : String → Except Unit LeadResp := fun u =>
  if u = "A" then Except.ok ⟨some ⟨some "Alice", some [⟨2, "linkedin", "sp1"⟩]⟩⟩
  else if u = "B" then Except.ok ⟨some ⟨some "Bob", some [⟨0, "linkedin", "sp1"⟩]⟩⟩
  else Except.error ()

/-- Inbox messages (fields: lead_uuid, text, created_at,
sender_profile_uuid, linkedin_conversation_uuid), newest first, with two
messages for contact A. -/
def msgsAB : List InboxMsg :=
  [⟨"A", "hi", "t1", "sp1", "c1"⟩, ⟨"B", "yo", "t2", "sp1", "c2"⟩,
   ⟨"A", "older", "t0", "sp1", "c1"⟩]

def mrAB : MessagesResp := ⟨some msgsAB, some 3⟩

/-- The expected aggregation result: only contact A, carrying its newest
message, with `total_unread = 1`. -/
def expectedAB : UnreadResult :=
  ⟨[⟨"Alice", "A", [⟨2, "linkedin", "sp1"⟩], "hi", "t1", "sp1", "c1"⟩], 1, some 3,
   some (some 3), "Showing contacts with unread_counts > 0 from recent inbox messages"⟩

/-- C1: the `get_unread_conversations` handler deduplicates the fetched
message list to one entry per distinct `lead_uuid` keeping the first
occurrence in the returned order; a contact appears in
`unread_conversations` only if its detail record's `unread_counts` array has
an entry with positive count; `total_unread` equals the length of
`unread_conversations`; zero inbox messages yield
`{unread_conversations: [], total_unread: 0}` with the explanatory note;
and on the spec's A/B scenario only contact A is reported, with
`total_unread = 1`. -/
theorem get_unread_conversations_contract (mr : MessagesResp)
    (f : String → Except Unit LeadResp) :
    ((mr.data = none ∨ mr.data = some []) →
      getUnreadConversations mr f = emptyUnreadResult) ∧
    (getUnreadConversations mr f).total_unread =
      (getUnreadConversations mr f).unread_conversations.length ∧
    (∀ msgs, mr.data = some msgs →
      (leadLatestMessage msgs).map Prod.fst = firstDedup (msgs.map InboxMsg.lead_uuid) ∧
      (∀ u m, (u, m) ∈ leadLatestMessage msgs →
        msgs.find? (fun msg => msg.lead_uuid == u) = some m) ∧
      ((getUnreadConversations mr f).unread_conversations.map
        UnreadConv.contact_uuid).Nodup ∧
      (∀ c ∈ (getUnreadConversations mr f).unread_conversations,
        msgs.find? (fun msg => msg.lead_uuid == c.contact_uuid) =
          some ⟨c.contact_uuid, c.latest_message, c.latest_message_at,
            c.sender_profile_uuid, c.conversation_uuid⟩ ∧
        ∃ ld, f c.contact_uuid = Except.ok ld ∧
          c.unread_counts = (ld.lead.bind LeadInfo.unread_counts).getD [] ∧
          ∃ uc ∈ c.unread_counts, 0 < uc.count)) ∧
    getUnreadConversations mrAB fAB = expectedAB := by
  refine ⟨?_, ?_, ?_, by decide⟩
  · intro hd
    rcases hd with hd | hd <;> simp [getUnreadConversations, hd]
  · cases hd : mr.data with
    | none => simp [getUnreadConversations, hd, emptyUnreadResult]
    | some msgs =>
      by_cases hlen : msgs.length = 0
      · simp [getUnreadConversations, hd, hlen, emptyUnreadResult]
      · simp [getUnreadConversations, hd, hlen]
  · intro msgs hd
    refine ⟨leadLatestMessage_keys msgs, ?_, ?_, ?_⟩
    · intro u m hm
      exact (leadLatestMessage_values msgs u m hm).1
    · by_cases hlen : msgs.length = 0
      · simp [getUnreadConversations, hd, hlen, emptyUnreadResult]
      · simp only [getUnreadConversations, hd, if_neg hlen]
        apply nodup_filterMap_uuids
        rw [leadLatestMessage_keys]
        exact firstDedup_nodup _
    · intro c hc
      have hc2 : c ∈ (leadLatestMessage msgs).filterMap
          (fun p => buildConv f p.1 p.2) := by
        by_cases hlen : msgs.length = 0
        · exfalso
          have hempty : getUnreadConversations mr f = emptyUnreadResult := by
            simp [getUnreadConversations, hd, hlen]
          rw [hempty] at hc
          simp [emptyUnreadResult] at hc
        · simp only [getUnreadConversations, hd] at hc
          rw [if_neg hlen] at hc
          exact hc
      obtain ⟨p, hp, hbp⟩ := List.mem_filterMap.mp hc2
      obtain ⟨ld, hld, huuid, hcnts, hpos, htext, hat, hsp, hconv⟩ :=
        buildConv_inv f p.1 p.2 c hbp
      obtain ⟨hfind, hlu⟩ := leadLatestMessage_values msgs p.1 p.2 hp
      constructor
      · rw [huuid, hfind]
        have hpm : p.2 = (⟨c.contact_uuid, c.latest_message, c.latest_message_at,
            c.sender_profile_uuid, c.conversation_uuid⟩ : InboxMsg) := by
          obtain ⟨pu, pm⟩ := p
          obtain ⟨mu, mt, mc, ms, ml⟩ := pm
          dsimp only at hlu htext hat hsp hconv huuid
          rw [htext, hat, hsp, hconv, huuid, ← hlu]
        rw [hpm, huuid]
      · exact ⟨ld, huuid ▸ hld, hcnts, hpos⟩

/-- C1 witness: the contract instantiated on the spec's A/B scenario and on
an empty inbox. -/
theorem get_unread_conversations_contract_witness :
    (leadLatestMessage msgsAB).map Prod.fst = firstDedup (msgsAB.map InboxMsg.lead_uuid) ∧
    getUnreadConversations { data := some [], total := some 0 } fAB = emptyUnreadResult ∧
    getUnreadConversations mrAB fAB = expectedAB := by
  refine ⟨?_, ?_, ?_⟩
  · exact ((get_unread_conversations_contract mrAB fAB).2.2.1 msgsAB rfl).1
  · exact (get_unread_conversations_contract { data := some [], total := some 0 } fAB).1
      (Or.inr rfl)
  · exact (get_unread_conversations_contract mrAB fAB).2.2.2

/-! ## C3: a failed detail fetch only skips that contact -/

theorem filterMap_buildConv_failed (f g : String → Except Unit LeadResp) (u : String)
    (hf : f u = Except.error ()) (hagree : ∀ v, v ≠ u → f v = g v)
    (pairs : List (String × InboxMsg)) :
    pairs.filterMap (fun p => buildConv f p.1 p.2) =
      (pairs.filterMap (fun p => buildConv g p.1 p.2)).filter
        (fun c => c.contact_uuid ≠ u) := by
  induction pairs with
  | nil => rfl
  | cons p ps ih =>
    by_cases hp : p.1 = u
    · have hnone : buildConv f p.1 p.2 = none := by
        simp only [buildConv, hp, hf]
      simp only [List.filterMap_cons, hnone]
      cases hb : buildConv g p.1 p.2 with
      | none => simpa [hb] using ih
      | some c =>
        have hcu : c.contact_uuid = u := hp ▸ buildConv_uuid g p.1 p.2 c hb
        simp only [hb, List.filter_cons]
        rw [if_neg (by simp [hcu])]
        exact ih
    · have heq : buildConv f p.1 p.2 = buildConv g p.1 p.2 := by
        simp only [buildConv, hagree p.1 hp]
      cases hb : buildConv g p.1 p.2 with
      | none => simp only [List.filterMap_cons, heq, hb]; exact ih
      | some c =>
        have hcu : c.contact_uuid = p.1 := buildConv_uuid g p.1 p.2 c hb
        simp only [List.filterMap_cons, heq, hb, List.filter_cons]
        rw [if_pos (by simp [hcu, hp])]
        rw [ih]

/-- C3: if the per-contact detail fetch fails for contact `u`, that contact
is omitted from the result and every other contact is handled exactly as in
a run where the fetch succeeds — one failed sub-lookup never aborts the
aggregation. -/
theorem aggregation_skips_failed_lookup (mr : MessagesResp)
    (f g : String → Except Unit LeadResp) (u : String)
    (hf : f u = Except.error ()) (hagree : ∀ v, v ≠ u → f v = g v) :
    (∀ c ∈ (getUnreadConversations mr f).unread_conversations, c.contact_uuid ≠ u) ∧
    (getUnreadConversations mr f).unread_conversations =
      ((getUnreadConversations mr g).unread_conversations).filter
        (fun c => c.contact_uuid ≠ u) ∧
    (getUnreadConversations mr f).total_unread =
      (((getUnreadConversations mr g).unread_conversations).filter
        (fun c => c.contact_uuid ≠ u)).length := by
  have hkey : (getUnreadConversations mr f).unread_conversations =
      ((getUnreadConversations mr g).unread_conversations).filter
        (fun c => c.contact_uuid ≠ u) := by
    cases hd : mr.data with
    | none => simp [getUnreadConversations, hd, emptyUnreadResult]
    | some msgs =>
      by_cases hlen : msgs.length = 0
      · simp [getUnreadConversations, hd, hlen, emptyUnreadResult]
      · simp only [getUnreadConversations, hd, if_neg hlen]
        exact filterMap_buildConv_failed f g u hf hagree (leadLatestMessage msgs)
  refine ⟨?_, hkey, ?_⟩
  · intro c hc
    rw [hkey] at hc
    have := (List.mem_filter.mp hc).2
    simpa using this
  · have hlen : (getUnreadConversations mr f).total_unread =
        (getUnreadConversations mr f).unread_conversations.length :=
      (get_unread_conversations_contract mr f).2.1
    rw [hlen, hkey]

/-- Detail-fetch stub where both contacts succeed with positive counts. -/
def gAgg : String → Except Unit LeadResp := fun u =>
  if u = "A" then Except.ok ⟨some ⟨some "Alice", some [⟨2, "linkedin", "sp1"⟩]⟩⟩
  else Except.ok ⟨some ⟨some "Bob", some [⟨1, "linkedin", "sp1"⟩]⟩⟩

/-- Detail-fetch stub that fails on contact `B` and otherwise agrees with
`gAgg`. -/
def fAgg : String → Except Unit LeadResp := fun u =>
  if u = "B" then Except.error () else gAgg u

/-- C3 witness: with contact B's detail fetch failing, B is omitted and the
result equals the all-success run filtered to the other contacts. -/
theorem aggregation_skips_failed_lookup_witness :
    (∀ c ∈ (getUnreadConversations mrAB fAgg).unread_conversations,
      c.contact_uuid ≠ "B") ∧
    (getUnreadConversations mrAB fAgg).unread_conversations =
      ((getUnreadConversations mrAB gAgg).unread_conversations).filter
        (fun c => c.contact_uuid ≠ "B") := by
  have h := aggregation_skips_failed_lookup mrAB fAgg gAgg "B" rfl
    (fun v hv => by unfold fAgg; rw [if_neg hv])
  exact ⟨h.1, h.2.1⟩

end Grinfi
